import Mathlib

set_option autoImplicit false

/-
  Shallow embedding of the caerbannog configuration-management tool.

  Source files embedded here:
  - src/caerbannog/var_loader.py        (unify, _get_targets_depth_first)
  - src/caerbannog/context.py           (get_var)
  - src/caerbannog/operations/operation.py   (Subject, Assertion, Handler, Change)
  - src/roles/role_context.py           (RoleContext.run_handlers)
  - src/caerbannog/target.py            (apply_role)
  - src/caerbannog/operations/subjects/file.py   (filesystem assertion family)
  - src/operations/subjects/file.py     (older revision of the same family)
  - src/caerbannog/secrets.py           (encrypt / decrypt wire format)

  Python values loaded from YAML are modelled by the `Value` type below
  (None, bool, int, str, list, dict).  Python dicts are modelled as
  insertion-ordered association lists (`Entries`); two dicts that are equal
  in Python (`==` ignores key order) are modelled by entries whose lookups
  agree.  Machine integers do not occur in the embedded code paths except
  for file modes, which are small naturals.
-/

namespace Caerbannog

mutual

inductive Value : Type where
  | vnone : Value
  | vbool : Bool → Value
  | vint : Int → Value
  | vstr : String → Value
  | vlist : VList → Value
  | vdict : Entries → Value

inductive VList : Type where
  | nil : VList
  | cons : Value → VList → VList

inductive Entries : Type where
  | nil : Entries
  | cons : String → Value → Entries → Entries

end

/-- Python `d.get(key)` / `key in d` resolve to the first (unique) matching
key of the dict. -/
def Entries.lookup : Entries → String → Option Value
  | .nil, _ => none
  | .cons k v rest, key => if k = key then some v else rest.lookup key

/-- Python `key in d`. -/
def Entries.hasKey (d : Entries) (k : String) : Bool :=
  (d.lookup k).isSome

/-- Python `d.keys()`, in insertion order. -/
def Entries.keys : Entries → List String
  | .nil => []
  | .cons k _ rest => k :: rest.keys

/-- Python `d[k] = v`: replaces the value in place when the key exists,
otherwise appends the new pair (insertion order semantics). -/
def Entries.assign : Entries → String → Value → Entries
  | .nil, k, v => .cons k v .nil
  | .cons k0 v0 rest, k, v =>
    if k0 = k then .cons k0 v rest else .cons k0 v0 (rest.assign k v)

def VList.isNil : VList → Bool
  | .nil => true
  | .cons _ _ => false

def Entries.isNil : Entries → Bool
  | .nil => true
  | .cons _ _ _ => false

/-- A single-quote character, used by Python `repr` of strings. -/
def squote : String := String.singleton (Char.ofNat 39)

mutual

/-- Python `repr` (escape sequences inside exotic strings are elided;
the embedded code only ever stringifies strategy names, which are plain
strings). -/
def pyRepr : Value → String
  | .vnone => "None"
  | .vbool true => "True"
  | .vbool false => "False"
  | .vint n => toString n
  | .vstr s => squote ++ s ++ squote
  | .vlist l => "[" ++ pyReprVList l ++ "]"
  | .vdict d => "\x7b" ++ pyReprEntries d ++ "\x7d"

def pyReprVList : VList → String
  | .nil => ""
  | .cons v .nil => pyRepr v
  | .cons v rest => pyRepr v ++ ", " ++ pyReprVList rest

def pyReprEntries : Entries → String
  | .nil => ""
  | .cons k v .nil => squote ++ k ++ squote ++ ": " ++ pyRepr v
  | .cons k v rest => squote ++ k ++ squote ++ ": " ++ pyRepr v ++ ", " ++ pyReprEntries rest

end

/-- Python `str(...)`: identity on strings, `repr` otherwise. -/
def pyStr : Value → String
  | .vstr s => s
  | v => pyRepr v

/-- Python truthiness, as used by `given_strategy or strategy`. -/
def pyTruthy : Value → Bool
  | .vnone => false
  | .vbool b => b
  | .vint n => n != 0
  | .vstr s => s != ""
  | .vlist l => !l.isNil
  | .vdict d => !d.isNil

/-- Python `v == MergeStrategy.X`: `MergeStrategy` is a `StrEnum`, so the
comparison is string equality when `v` is a string and `False` for every
other runtime type. -/
def Value.eqPyStr : Value → String → Bool
  | .vstr t, s => t == s
  | _, _ => false

/-- var_loader.py: `CONFLICT_HINT = "$conflict"`. -/
def CONFLICT_HINT : String := "$conflict"

/-- var_loader.py line 63:
`given_strategy = overlay.get(CONFLICT_HINT, base.get(CONFLICT_HINT, None))`.
A stored Python `None` is indistinguishable here from an absent key, so both
map to `Value.vnone`. -/
def givenHint (base overlay : Entries) : Value :=
  match overlay.lookup CONFLICT_HINT with
  | some v => v
  | none =>
    match base.lookup CONFLICT_HINT with
    | some v => v
    | none => .vnone

/-- var_loader.py lines 65-67: the fresh `unified` dict, seeded with the
stringified hint when `given_strategy is not None`. -/
def initialEntries (base overlay : Entries) : Entries :=
  match givenHint base overlay with
  | .vnone => .nil
  | g => .cons CONFLICT_HINT (.vstr (pyStr g)) .nil

/-- var_loader.py line 69: `strategy = given_strategy or strategy`
(Python `or` keeps the left operand when it is truthy). -/
def effStrategy (base overlay : Entries) (strategy : Value) : Value :=
  if pyTruthy (givenHint base overlay) then givenHint base overlay else strategy

/-- var_loader.py lines 73-76 (REPLACE branch):
`for k, v in overlay.items(): if k == CONFLICT_HINT: continue; unified[k] = v`. -/
def replaceEntries (overlay : Entries) (acc : Entries) : Entries :=
  match overlay with
  | .nil => acc
  | .cons k v rest =>
    if k = CONFLICT_HINT then replaceEntries rest acc
    else replaceEntries rest (acc.assign k v)

/-- var_loader.py line 79: `base.keys() | overlay.keys()`.  Python iterates
this set union in an unspecified order; we fix first-occurrence order
(base keys first).  All theorems below are stated through `lookup`/`hasKey`,
which are insensitive to this choice. -/
def keysUnion (base overlay : Entries) : List String :=
  base.keys ++ overlay.keys.filter (fun k => !(base.hasKey k))

/-- var_loader.py lines 80-92, the body of one MERGE-loop iteration: the
value `unified[key]` receives.  `recur` is the recursive `unify` call for
the both-sides-are-dicts case (it closes over the resolved strategy, which
line 90 passes down).  `in_base and not in_overlay` etc. are expressed by
matching on the two lookups; line 89's `type(...) == dict` checks are the
`.vdict` patterns. -/
def mergeStep (recur : Entries → Entries → Option (Except String Entries))
    (base overlay : Entries) (k : String) : Option (Except String Value) :=
  match base.lookup k, overlay.lookup k with
  | some bv, none => some (.ok bv)
  | none, some ov => some (.ok ov)
  | some (.vdict db), some (.vdict dov) =>
    match recur db dov with
    | none => none
    | some (.error e) => some (.error e)
    | some (.ok w) => some (.ok (.vdict w))
  | some _, some ov => some (.ok ov)
  | none, none => some (.ok .vnone)

/-- var_loader.py lines 79-92, the MERGE loop:
`for key in base.keys() | overlay.keys(): unified[key] = ...`. -/
def mergeLoop (recur : Entries → Entries → Option (Except String Entries))
    (base overlay : Entries) : List String → Entries → Option (Except String Entries)
  | [], acc => some (.ok acc)
  | k :: rest, acc =>
    match mergeStep recur base overlay k with
    | none => none
    | some (.error e) => some (.error e)
    | some (.ok v) => mergeLoop recur base overlay rest (acc.assign k v)

/-- var_loader.py lines 52-94, `unify(base, overlay, strategy)`.

The Python function recurses through looked-up dict values, which is not
structural; a fuel parameter makes it total (`none` = fuel exhausted, which
never happens for the fuel chosen by `unify` below).  `Except.error` models
the `raise` on the ERROR strategy.  The strategy parameter is a `Value`
because line 90 passes the resolved strategy (which may be any hint value)
down to the recursive call. -/
def unifyF : Nat → Entries → Entries → Value → Option (Except String Entries)
  | 0, _, _, _ => none
  | fuel + 1, base, overlay, strategy =>
    let strat := effStrategy base overlay strategy
    if strat.eqPyStr "error" then
      some (.error "Refusing to merge conflicting dictionaries.")
    else if strat.eqPyStr "replace" then
      some (.ok (replaceEntries overlay (initialEntries base overlay)))
    else
      mergeLoop (fun db dov => unifyF fuel db dov strat)
        base overlay (keysUnion base overlay) (initialEntries base overlay)

mutual

/-- Structural size of a value, used only to compute a sufficient fuel. -/
def Value.vsize : Value → Nat
  | .vnone => 1
  | .vbool _ => 1
  | .vint _ => 1
  | .vstr _ => 1
  | .vlist l => 1 + l.lsize
  | .vdict d => 1 + d.esize

def VList.lsize : VList → Nat
  | .nil => 1
  | .cons v rest => 1 + v.vsize + rest.lsize

def Entries.esize : Entries → Nat
  | .nil => 1
  | .cons _ v rest => 1 + v.vsize + rest.esize

end

/-- Each nested `unify` call strictly decreases `esize base + esize overlay`,
so this fuel is always sufficient. -/
def unify (base overlay : Entries) (strategy : Value) : Option (Except String Entries) :=
  unifyF (base.esize + overlay.esize + 1) base overlay strategy

/-- `MergeStrategy.MERGE`, the default strategy argument (a `StrEnum`, i.e.
the string "merge"). -/
def mergeV : Value := .vstr "merge"

end Caerbannog

namespace Caerbannog

/-! ### Target graph and variable-resolution order (src/caerbannog/var_loader.py, target.py) -/

/-- A target registry: target name → required target names.  target.py keeps
a process-wide dict of `TargetDescriptor`s interned by name;
`dependencies()` resolves required names through `target(name)`, which
creates an (empty) descriptor on first reference, so a name that was never
declared has no requirements. -/
def depsOf : List (String × List String) → String → List String
  | [], _ => []
  | (n, reqs) :: rest, t => if n = t then reqs else depsOf rest t

/-- var_loader.py lines 100-107: `add(target, depth)` records the minimum
depth at which a target was reached, keeping dict insertion order. -/
def addKnown : List (String × Nat) → String → Nat → List (String × Nat)
  | [], t, depth => [(t, depth)]
  | (n, d) :: rest, t, depth =>
    if n = t then (n, min d depth) :: rest
    else (n, d) :: addKnown rest t depth

/-- var_loader.py lines 109-114: the depth-first traversal
`recurse(target, depth)` — it visits every requires-path (there is no
visited set), accumulating minimum depths.  Defunctionalised with an
explicit worklist: popping `(t, depth)` records `t` and pushes its
dependencies at depth + 1 in front, which reproduces the source's
pre-order, path-by-path traversal.  The source recursion diverges on
cyclic `requires`; the fuel (one unit per visited path node) makes the
embedding total, with `none` meaning fuel ran out. -/
def dfsLoop (g : List (String × List String)) :
    Nat → List (String × Nat) → List (String × Nat) → Option (List (String × Nat))
  | _, [], known => some known
  | 0, _ :: _, _ => none
  | fuel + 1, (t, depth) :: work, known =>
    dfsLoop g fuel ((depsOf g t).map (fun d => (d, depth + 1)) ++ work)
      (addKnown known t depth)

/-- Python string `<=`: lexicographic comparison of code points. -/
def charsLe : List Char → List Char → Bool
  | [], _ => true
  | _ :: _, [] => false
  | c :: cr, d :: dr =>
    if c.toNat < d.toNat then true
    else if c.toNat = d.toNat then charsLe cr dr
    else false

def strLe (a b : String) : Bool := charsLe a.toList b.toList

/-- var_loader.py lines 116-118: the sort key `(-depth, target.name())` as a
boolean total order: deeper targets first, ties by ascending name. -/
def depthNameLe (a b : String × Nat) : Bool :=
  (b.2 < a.2) || (a.2 == b.2 && strLe a.1 b.1)

def insertSorted (x : String × Nat) : List (String × Nat) → List (String × Nat)
  | [] => [x]
  | y :: rest => if depthNameLe x y then x :: y :: rest else y :: insertSorted x rest

/-- Python `sorted` (stable; the keys here are unique per name, so
stability is irrelevant).  Modelled by insertion sort. -/
def sortByDepthName : List (String × Nat) → List (String × Nat)
  | [] => []
  | x :: rest => insertSorted x (sortByDepthName rest)

/-- var_loader.py lines 97-121, `_get_targets_depth_first`, returning the
target names in resolution order. -/
def getTargetsDepthFirst (g : List (String × List String)) (t : String)
    (fuel : Nat) : Option (List String) :=
  match dfsLoop g fuel [(t, 0)] [] with
  | none => none
  | some known => some ((sortByDepthName known).map (fun p => p.1))

/-- Modelled from the spec: the set of targets reachable from `t` by a
`requires`-path of exactly `n` steps ("a DFS over requires ... recording
for every reachable target the minimum depth at which it was reached"). -/
def reachAtDepth (g : List (String × List String)) (t : String) : Nat → List String
  | 0 => [t]
  | n + 1 => ((reachAtDepth g t n).map (depsOf g)).flatten

/-- Modelled from the spec: the minimum depth of `s` among all
`requires`-paths from `t` of length at most `bound`. -/
def specMinDepth (g : List (String × List String)) (t s : String)
    (bound : Nat) : Option Nat :=
  (List.range (bound + 1)).find? (fun n => (reachAtDepth g t n).contains s)

/-- Modelled from the spec: the reachable targets (within `bound` steps)
sorted by descending minimum depth, then ascending name. -/
def specResolveOrder (g : List (String × List String)) (t : String)
    (bound : Nat) : List String :=
  let reachable :=
    (((List.range (bound + 1)).map (reachAtDepth g t)).flatten).dedup
  let withDepth := reachable.filterMap
    (fun s => (specMinDepth g t s bound).map (fun d => (s, d)))
  (sortByDepthName withDepth).map (fun p => p.1)

/-! ### Variable lookup (src/caerbannog/context.py, get_var) -/

/-- Python `name.split(".")` (separator is a single dot, so the Python
corner cases are `"" → [""]` and trailing dots producing empty segments). -/
def splitDotsAux : List Char → List Char → List String
  | [], acc => [String.mk acc.reverse]
  | c :: rest, acc =>
    if c = Char.ofNat 46 then String.mk acc.reverse :: splitDotsAux rest []
    else splitDotsAux rest (c :: acc)

def splitDots (s : String) : List String :=
  splitDotsAux s.toList []

/-- Python `sub in l` for a list and a string (string equality against each
element; no exception). -/
def listContainsStr : VList → String → Bool
  | .nil, _ => false
  | .cons v rest, s =>
    (match v with | .vstr t => t == s | _ => false) || listContainsStr rest s

/-- Python `sub in s` substring containment. -/
def containsSub : List Char → List Char → Bool
  | [], sub => sub.isEmpty
  | c :: rest, sub => sub.isPrefixOf (c :: rest) || containsSub rest sub

/-- context.py lines 129-136, the traversal loop of `get_var`:
`for part in path: if part not in current: return default; current = current[part]`.
`in` on a non-container raises `TypeError`; on a list it checks membership
but the subsequent `current[part]` with a string index raises; on a string
it checks substring containment, and indexing by a string likewise raises.
Errors are modelled with `Except.error`. -/
def getVarLoop (dflt : Value) : Value → List String → Except String Value
  | current, [] => .ok current
  | current, part :: rest =>
    match current with
    | .vdict d =>
      match d.lookup part with
      | none => .ok dflt
      | some v => getVarLoop dflt v rest
    | .vlist l =>
      if listContainsStr l part then .error "TypeError: list indices must be integers"
      else .ok dflt
    | .vstr s =>
      if containsSub s.toList part.toList then
        .error "TypeError: string indices must be integers"
      else .ok dflt
    | _ => .error "TypeError: argument is not iterable"

/-- context.py lines 123-136, `get_var(name, default)` over the context's
variable tree. -/
def get_var (vars : Entries) (name : String) (dflt : Value) : Except String Value :=
  getVarLoop dflt (.vdict vars) (splitDots name)

/-- The value reached by following a path of mapping keys (specification
helper for claim C10): `some v` when every segment is present and each
traversed value is a mapping. -/
def followPathV : Value → List String → Option Value
  | v, [] => some v
  | .vdict d, p :: rest =>
    (match d.lookup p with
     | some v => followPathV v rest
     | none => none)
  | _, _ :: _ => none

/-- The traversal stays within mappings but some segment is absent at its
level (specification helper for claim C10). -/
def pathMisses : Value → List String → Bool
  | _, [] => false
  | .vdict d, p :: rest =>
    (match d.lookup p with
     | some v => pathMisses v rest
     | none => true)
  | _, _ :: _ => false

/-- Example graph from the spec: `a0→{b0,b1}`, `b0→{c0,c1}`, `b1→{c0,c2}`. -/
def exGraph1 : List (String × List String) :=
  [("a0", ["b0", "b1"]), ("b0", ["c0", "c1"]), ("b1", ["c0", "c2"])]

/-- Example graph from the spec: `a0→{b0,c0}`, `b0→{c0}`. -/
def exGraph2 : List (String × List String) :=
  [("a0", ["b0", "c0"]), ("b0", ["c0"])]


/-! ### Subject / Assertion / Change / Handler
(src/caerbannog/operations/operation.py, src/roles/role_context.py,
src/caerbannog/target.py) -/

/-- operation.py lines 261-265. -/
inductive DiffType where
  | NEUTRAL
  | ADD
  | REMOVE
  | HEADER

/-- operation.py lines 234-243: an immutable change record (its optional
side-effecting `execute` action is modelled per assertion kind in the
filesystem family below). -/
structure Change where
  name : String
  details : List (DiffType × String)

/-- operation.py lines 170-175: an Assertion's name and the Changes its most
recent evaluation recorded (`self._changes`). -/
structure AssertionRec where
  name : String
  changes : List Change

/-- operation.py lines 197-198: `len(self._changes) > 0`. -/
def AssertionRec.changed (a : AssertionRec) : Bool :=
  decide (0 < a.changes.length)

mutual

/-- operation.py lines 82-87: a Subject has a description (`describe()` or
the `annotate` override, collapsed to one field), its own ordered
assertions, and the `_subjects_before` prerequisite list. -/
inductive Subj where
  | mk (description : String) (own : List AssertionRec) (pre : SubjList)

inductive SubjList where
  | nil
  | cons (s : Subj) (rest : SubjList)

end

def Subj.description : Subj → String
  | .mk d _ _ => d

def Subj.own : Subj → List AssertionRec
  | .mk _ own _ => own

def Subj.pre : Subj → SubjList
  | .mk _ _ pre => pre

mutual

/-- operation.py lines 138-146, `Subject.assertions()`: all assertions of
the prerequisite subjects (recursively), then the subject's own. -/
def Subj.assertions : Subj → List AssertionRec
  | .mk _ own pre => SubjList.assertionsAll pre ++ own

def SubjList.assertionsAll : SubjList → List AssertionRec
  | .nil => []
  | .cons s rest => s.assertions ++ SubjList.assertionsAll rest

end

mutual

/-- operation.py lines 102-105, `Subject.changed()`:
`any(a.changed() for a in self.assertions()) or
 any(c.changed() for c in self._subjects_before)`. -/
def Subj.changed : Subj → Bool
  | .mk d own pre =>
    (Subj.mk d own pre).assertions.any AssertionRec.changed
      || SubjList.anyChanged pre

def SubjList.anyChanged : SubjList → Bool
  | .nil => false
  | .cons s rest => s.changed || SubjList.anyChanged rest

end

mutual

/-- The prerequisite subjects of a subject, transitively (prerequisites,
their prerequisites, and so on) — the reach set the claim quantifies over. -/
def Subj.transPre : Subj → List Subj
  | .mk _ _ pre => SubjList.transPreAll pre

def SubjList.transPreAll : SubjList → List Subj
  | .nil => []
  | .cons s rest => s :: (s.transPre ++ SubjList.transPreAll rest)

end

mutual

/-- Mutual structural induction for `Subj`/`SubjList`. -/
def Subj.inductPair {P : Subj → Prop} {Q : SubjList → Prop}
    (hmk : ∀ d own pre, Q pre → P (.mk d own pre))
    (hnil : Q .nil)
    (hcons : ∀ s rest, P s → Q rest → Q (.cons s rest)) : ∀ s, P s
  | .mk d own pre => hmk d own pre (SubjList.inductPairAll hmk hnil hcons pre)

def SubjList.inductPairAll {P : Subj → Prop} {Q : SubjList → Prop}
    (hmk : ∀ d own pre, Q pre → P (.mk d own pre))
    (hnil : Q .nil)
    (hcons : ∀ s rest, P s → Q rest → Q (.cons s rest)) : ∀ l, Q l
  | .nil => hnil
  | .cons s rest =>
    hcons s rest (Subj.inductPair hmk hnil hcons s)
      (SubjList.inductPairAll hmk hnil hcons rest)

end

/-- operation.py lines 42-53: a Handler's listened subjects (`_listen`,
filled by `register`/`on_change`), called subjects (`_call`), and the
`_generated` flag set by `_create_internal`. -/
structure HandlerR where
  listen : List Subj
  call : List Subj
  generated : Bool

/-- One observable log/apply event of a handler run.  `fired` stands for
`log.change("executing handler for:")`, `skipped` for
`log.no_change("skipped handler for:")`, the summary constructors for the
per-subject lines of `_display_summary`, and `applySubject` for
`tgt.apply(log)` on a called subject. -/
inductive HEvent where
  | fired
  | skipped
  | summaryChanged (desc : String)
  | summaryUnchanged (desc : String)
  | applySubject (desc : String)

/-- operation.py lines 73-79, `Handler._display_summary`. -/
def handlerSummary (h : HandlerR) : List HEvent :=
  h.listen.map fun s =>
    if s.changed then .summaryChanged s.description
    else .summaryUnchanged s.description

/-- operation.py lines 61-71, `Handler.apply`: fire (and apply every called
subject, in order) iff any listened subject changed; otherwise report the
skip unless the handler was internally generated. -/
def HandlerR.apply (h : HandlerR) : List HEvent :=
  if h.listen.any Subj.changed then
    .fired :: (handlerSummary h ++ h.call.map fun t => .applySubject t.description)
  else if !h.generated then
    .skipped :: handlerSummary h
  else
    []

/-- role_context.py lines 34-36, `RoleContext.run_handlers`: each handler
applied once, in registration order. -/
def runHandlers (hs : List HandlerR) : List HEvent :=
  (hs.map HandlerR.apply).flatten

/-- target.py lines 22-29: inside `apply_role`, `module.configure()` runs
and only if it returns without raising does `role_ctx.run_handlers()` run
(an exception from `configure` is caught and the role aborted).  The
configure outcome is modelled as the handlers it registered or the raised
error. -/
def applyRoleHandlerEvents (configure : Except String (List HandlerR)) : List HEvent :=
  match configure with
  | .ok hs => runHandlers hs
  | .error _ => []

def isFired : HEvent → Bool
  | .fired => true
  | _ => false

/-- Number of handler firings recorded in an event trace. -/
def countFires (evs : List HEvent) : Nat :=
  (evs.filter isFired).length

/-! ### Filesystem assertion family
(src/caerbannog/operations/subjects/file.py — current revision — and
src/operations/subjects/file.py — older revision; both cited by the
claims).

The filesystem is a flat map from path strings to entries.  Path-hierarchy
consistency (parent directories) is outside the model: the claims below
exercise single-path assertions, not the `prepare()` parent-creation
machinery.  Symlink chains are resolved one hop (deeper chains and
symlink-directed `rmtree` are corners no claim touches).  `should_confirm`
is `False` (its default; the interactive confirmation prompt is I/O), so
`register_change` appends the Change and, in modify mode, executes it
(operation.py lines 177-183). -/

inductive FileContent where
  | text (s : String)
  | binary (bytes : List Nat)

inductive FsEntry where
  | file (content : FileContent) (user group : String) (mode : Nat)
  | dir (user group : String) (mode : Nat)
  | symlink (target : String)
  | other

abbrev FsState := List (String × FsEntry)

def fsLookup : FsState → String → Option FsEntry
  | [], _ => none
  | (p, e) :: rest, q => if p = q then some e else fsLookup rest q

def fsSet : FsState → String → FsEntry → FsState
  | [], p, e => [(p, e)]
  | (q, e0) :: rest, p, e =>
    if q = p then (q, e) :: rest else (q, e0) :: fsSet rest p e

/-- `os.remove`. -/
def fsRemove (s : FsState) (p : String) : FsState :=
  s.filter (fun kv => kv.1 != p)

def charsIsPrefix : List Char → List Char → Bool
  | [], _ => true
  | _ :: _, [] => false
  | a :: as, b :: bs => a == b && charsIsPrefix as bs

def strHasPrefix (pre s : String) : Bool :=
  charsIsPrefix pre.toList s.toList

/-- `shutil.rmtree`: removes the path and everything below it. -/
def fsRemoveTree (s : FsState) (p : String) : FsState :=
  s.filter (fun kv => kv.1 != p && !(strHasPrefix (p ++ "/") kv.1))

/-- The entry a path designates after following one symlink hop
(`open`, `os.path.isfile/isdir/exists`, `pathlib.Path.owner` follow
symlinks). -/
def resolveEntry (s : FsState) (p : String) : Option FsEntry :=
  match fsLookup s p with
  | some (.symlink t) =>
    (match fsLookup s t with
     | some (.symlink _) => none
     | e => e)
  | e => e

/-- The real path a following operation (chown/chmod/open) affects. -/
def fsResolvePath (s : FsState) (p : String) : String :=
  match fsLookup s p with
  | some (.symlink t) => t
  | _ => p

/-- `os.path.isfile` (follows symlinks). -/
def isfileB (s : FsState) (p : String) : Bool :=
  match resolveEntry s p with
  | some (.file _ _ _ _) => true
  | _ => false

/-- `os.path.isdir` (follows symlinks). -/
def isdirB (s : FsState) (p : String) : Bool :=
  match resolveEntry s p with
  | some (.dir _ _ _) => true
  | _ => false

/-- `os.path.islink` (does not follow). -/
def islinkB (s : FsState) (p : String) : Bool :=
  match fsLookup s p with
  | some (.symlink _) => true
  | _ => false

/-- `os.path.exists` (follows symlinks; a dangling symlink does not exist). -/
def existsB (s : FsState) (p : String) : Bool :=
  (resolveEntry s p).isSome

/-- `os.readlink` (callers only use it under an `islink` guard). -/
def readlinkStr (s : FsState) (p : String) : String :=
  match fsLookup s p with
  | some (.symlink t) => t
  | _ => ""

def FsEntry.setUser : FsEntry → String → FsEntry
  | .file c _ g m, u => .file c u g m
  | .dir _ g m, u => .dir u g m
  | e, _ => e

def FsEntry.setGroup : FsEntry → String → FsEntry
  | .file c u _ m, g => .file c u g m
  | .dir u _ m, g => .dir u g m
  | e, _ => e

def FsEntry.setMode : FsEntry → Nat → FsEntry
  | .file c u g _, m => .file c u g m
  | .dir u g _, m => .dir u g m
  | e, _ => e

/-- `shutil.chown(path, user=u)` (follows symlinks). -/
def chownUserAt (s : FsState) (p : String) (u : String) : FsState :=
  let rp := fsResolvePath s p
  match fsLookup s rp with
  | some e => fsSet s rp (e.setUser u)
  | none => s

/-- `shutil.chown(path, group=g)` (follows symlinks). -/
def chownGroupAt (s : FsState) (p : String) (g : String) : FsState :=
  let rp := fsResolvePath s p
  match fsLookup s rp with
  | some e => fsSet s rp (e.setGroup g)
  | none => s

/-- `os.chmod` (follows symlinks). -/
def chmodAt (s : FsState) (p : String) (m : Nat) : FsState :=
  let rp := fsResolvePath s p
  match fsLookup s rp with
  | some e => fsSet s rp (e.setMode m)
  | none => s

/-- `pathlib.Path.owner()` / `.group()`: owner of the resolved entry
(the owner of unmodelled `other` entry kinds is elided). -/
def entryOwner : FsEntry → Option (String × String)
  | .file _ u g _ => some (u, g)
  | .dir u g _ => some (u, g)
  | _ => none

/-- `os.stat(path, follow_symlinks=False).st_mode & 0o777`
(`x % 512 = x &&& 0o777`; a symlink itself has mode `0o777`; the mode of
unmodelled `other` entries is elided as 0). -/
def entryModeLstat : FsEntry → Nat
  | .file _ _ _ m => m % 512
  | .dir _ _ m => m % 512
  | .symlink _ => 511
  | .other => 0

/-- Python `f"{n:03o}"`: octal, zero-padded to width 3. -/
def octDigitChar (n : Nat) : Char := Char.ofNat (48 + n % 8)

def octalAux : Nat → Nat → List Char
  | 0, _ => []
  | fuel + 1, n => if n = 0 then [] else octalAux fuel (n / 8) ++ [octDigitChar n]

def octal3 (n : Nat) : String :=
  let ds := if n = 0 then [Char.ofNat 48] else octalAux (n + 1) n
  String.mk (List.replicate (3 - ds.length) (Char.ofNat 48) ++ ds)

/-- The Change values of file.py (current revision); `DiffLine.remove` and
`DiffLine.add` prepend `"- "` and `"+ "`. -/
def fileCreated : Change := ⟨"file created", []⟩

def directoryCreated : Change := ⟨"directory created", []⟩

def symlinkCreated : Change := ⟨"symlink created", []⟩

def fileRemoved : Change := ⟨"file removed", []⟩

def directoryRemoved : Change := ⟨"directory removed", []⟩

def symlinkRemoved : Change := ⟨"symlink removed", []⟩

def symlinkChanged (old new : String) : Change :=
  ⟨"symlink changed", [(.REMOVE, "- " ++ old), (.ADD, "+ " ++ new)]⟩

def userChanged (old new : String) : Change :=
  ⟨"user changed", [(.REMOVE, "- " ++ old), (.ADD, "+ " ++ new)]⟩

def groupChanged (old new : String) : Change :=
  ⟨"group changed", [(.REMOVE, "- " ++ old), (.ADD, "+ " ++ new)]⟩

def modeChanged (old new : Nat) : Change :=
  ⟨"mode changed", [(.REMOVE, "- " ++ octal3 old), (.ADD, "+ " ++ octal3 new)]⟩

def contentChangedSummary (delta : Int) : Change :=
  ⟨"content changed", [(.NEUTRAL, if delta > 0 then "+" ++ toString delta else toString delta)]⟩

/-- ContentChanged carries a rendered unified diff (difflib plus
`format_diff` with the 250-line cap).  The rendering is display-only data
produced by an external library, so it is a parameter of the embedding. -/
def contentChanged (diffDetails : String → String → List (DiffType × String))
    (frm dst : String) : Change :=
  ⟨"content changed", diffDetails frm dst⟩

/-- Modelled from the spec: the `_display_passed` / `_display_failed` /
`_display_changed` / `_display` helpers called by both file.py revisions
belong to an Assertion base-class revision that is not present under src/;
the spec says a failing assertion "reports a failure", a passing one logs a
pass, and a changed one shows its changes.  Each helper is modelled as one
log token. -/
inductive FsLog where
  | passed
  | failed
  | changedRep
  | plain

abbrev FsResult := Except String (FsState × List Change × List FsLog)

/-- Ownership and mode given to entries freshly created by a Change
(`open(path, "w")` / `mkdir`): the invoking user's identity and the
process umask — external context, hence a parameter. -/
structure FsDefaults where
  user : String
  group : String
  mode : Nat

def pathNotSupportedMsg (p : String) : String :=
  squote ++ p ++ squote ++ " is not a file, directory or symlink"

/-- file.py lines 222-235 (current revision), `IsFile.apply`: pass when the
path is a file; otherwise remove a directory/symlink occupant (fatal for
unsupported kinds) and fall through to `FileCreated`, whose `execute`
creates an empty file. -/
def isFileApply (path : String) (modify : Bool) (dfl : FsDefaults)
    (s : FsState) : FsResult :=
  if isfileB s path then .ok (s, [], [.passed])
  else if isdirB s path then
    let s1 := if modify then fsRemoveTree s path else s
    let s2 := if modify then
        fsSet s1 path (.file (.text "") dfl.user dfl.group dfl.mode)
      else s1
    .ok (s2, [directoryRemoved, fileCreated], [.changedRep])
  else if islinkB s path then
    let s1 := if modify then fsRemove s path else s
    let s2 := if modify then
        fsSet s1 path (.file (.text "") dfl.user dfl.group dfl.mode)
      else s1
    .ok (s2, [symlinkRemoved, fileCreated], [.changedRep])
  else if existsB s path then
    .error (pathNotSupportedMsg path)
  else
    let s2 := if modify then
        fsSet s path (.file (.text "") dfl.user dfl.group dfl.mode)
      else s
    .ok (s2, [fileCreated], [.changedRep])

/-- file.py lines 173-186 (current revision), `IsDirectory.apply`. -/
def isDirectoryApply (path : String) (modify : Bool) (dfl : FsDefaults)
    (s : FsState) : FsResult :=
  if isdirB s path then .ok (s, [], [.passed])
  else if isfileB s path then
    let s1 := if modify then fsRemove s path else s
    let s2 := if modify then
        fsSet s1 path (.dir dfl.user dfl.group dfl.mode)
      else s1
    .ok (s2, [fileRemoved, directoryCreated], [.plain])
  else if islinkB s path then
    let s1 := if modify then fsRemove s path else s
    let s2 := if modify then
        fsSet s1 path (.dir dfl.user dfl.group dfl.mode)
      else s1
    .ok (s2, [symlinkRemoved, directoryCreated], [.plain])
  else if existsB s path then
    .error (pathNotSupportedMsg path)
  else
    let s2 := if modify then
        fsSet s path (.dir dfl.user dfl.group dfl.mode)
      else s
    .ok (s2, [directoryCreated], [.plain])

/-- file.py lines 259-275 (current revision), `IsSymlink.apply`.  Note the
branch structure of the source: removing a directory or file occupant does
NOT fall through to `SymlinkCreated` — only the path-absent `else` branch
creates the link. -/
def isSymlinkApply (path target : String) (modify : Bool)
    (s : FsState) : FsResult :=
  if islinkB s path then
    let oldTarget := readlinkStr s path
    if oldTarget = target then .ok (s, [], [.passed])
    else
      let s2 := if modify then fsSet (fsRemove s path) path (.symlink target) else s
      .ok (s2, [symlinkChanged oldTarget target], [.changedRep])
  else if isdirB s path then
    let s2 := if modify then fsRemoveTree s path else s
    .ok (s2, [directoryRemoved], [.changedRep])
  else if isfileB s path then
    let s2 := if modify then fsRemove s path else s
    .ok (s2, [fileRemoved], [.changedRep])
  else if existsB s path then
    .error (pathNotSupportedMsg path)
  else
    let s2 := if modify then fsSet s path (.symlink target) else s
    .ok (s2, [symlinkCreated], [.changedRep])

/-- file.py lines 309-336 (current revision), `HasOwner.apply`: a missing
path (`FileNotFoundError` from `path.owner()`) reports a failure and
returns — in every mode; on drift, `UserChanged`/`GroupChanged` are
registered in that order, each executing its chown in modify mode. -/
def hasOwnerApply (path : String) (user group : Option String) (modify : Bool)
    (s : FsState) : FsResult :=
  match resolveEntry s path with
  | none => .ok (s, [], [.failed])
  | some e =>
    match entryOwner e with
    | none => .error "owner of unmodelled entry kind"
    | some (oldUser, oldGroup) =>
      let newUser : Option String :=
        match user with
        | some u => if oldUser ≠ u then some u else none
        | none => none
      let newGroup : Option String :=
        match group with
        | some g => if oldGroup ≠ g then some g else none
        | none => none
      match newUser, newGroup with
      | none, none => .ok (s, [], [.passed])
      | nu, ng =>
        let s1 := match nu with
          | some u => if modify then chownUserAt s path u else s
          | none => s
        let s2 := match ng with
          | some g => if modify then chownGroupAt s1 path g else s1
          | none => s1
        let cs :=
          (match nu with | some u => [userChanged oldUser u] | none => [])
            ++ (match ng with | some g => [groupChanged oldGroup g] | none => [])
        .ok (s2, cs, [.plain])

/-- file.py lines 345-357 (current revision), `HasMode.apply`: a missing
path reports a failure and returns — in every mode. -/
def hasModeApply (path : String) (mode : Nat) (modify : Bool)
    (s : FsState) : FsResult :=
  match fsLookup s path with
  | none => .ok (s, [], [.failed])
  | some e =>
    let currentMode := entryModeLstat e
    if currentMode ≠ mode then
      let s2 := if modify then chmodAt s path mode else s
      .ok (s2, [modeChanged currentMode mode], [.plain])
    else .ok (s, [], [.plain])

/-- `open(path, "w").write(content)`, following symlinks: overwrite keeps
the file's ownership and mode; creation uses the process defaults. -/
def writeTextAt (s : FsState) (path content : String) (dfl : FsDefaults) : FsState :=
  let rp := fsResolvePath s path
  match fsLookup s rp with
  | some (.file _ u g m) => fsSet s rp (.file (.text content) u g m)
  | some _ => s
  | none => fsSet s rp (.file (.text content) dfl.user dfl.group dfl.mode)

/-- file.py lines 366-381 (current revision), `HasContent.apply`: a missing
file counts as drift (and the corrective write creates it); only
`FileNotFoundError` is caught, so reading a directory or undecodable bytes
raises.  (Byte payloads are treated as undecodable; utf-8 decoding is
outside the model.) -/
def hasContentApply (diffDetails : String → String → List (DiffType × String))
    (path content : String) (modify : Bool) (dfl : FsDefaults)
    (s : FsState) : FsResult :=
  match resolveEntry s path with
  | none =>
    let s2 := if modify then writeTextAt s path content dfl else s
    .ok (s2, [contentChanged diffDetails "" content], [.plain])
  | some (.file (.text t) _ _ _) =>
    if t ≠ content then
      let s2 := if modify then writeTextAt s path content dfl else s
      .ok (s2, [contentChanged diffDetails t content], [.plain])
    else .ok (s, [], [.plain])
  | some (.file (.binary _) _ _ _) => .error "UnicodeDecodeError"
  | some (.dir _ _ _) => .error "IsADirectoryError"
  | some _ => .error "OSError"

/-- file.py lines 384-409 with lines 527-529 (current revision),
`HasBinaryContent.apply`: on drift it registers `ContentChangedSummary`,
whose `execute` calls `open(self._path, "wb", encoding="utf-8")` — in
CPython a binary mode together with an `encoding` argument always raises
`ValueError`, so every modify-mode correction of binary content fails.
(A text-stored file read as bytes is treated as differing; utf-8 encoding
is outside the model.) -/
def hasBinaryContentApply (path : String) (content : List Nat) (modify : Bool)
    (s : FsState) : FsResult :=
  match resolveEntry s path with
  | none =>
    if modify then .error "ValueError: binary mode does not take an encoding argument"
    else .ok (s, [contentChangedSummary (Int.ofNat content.length - 0)], [.plain])
  | some (.file (.binary bs) _ _ _) =>
    if bs ≠ content then
      if modify then .error "ValueError: binary mode does not take an encoding argument"
      else .ok (s, [contentChangedSummary
        (Int.ofNat content.length - Int.ofNat bs.length)], [.plain])
    else .ok (s, [], [.plain])
  | some (.file (.text _) _ _ _) =>
    if modify then .error "ValueError: binary mode does not take an encoding argument"
    else .ok (s, [contentChangedSummary (Int.ofNat content.length - 0)], [.plain])
  | some (.dir _ _ _) => .error "IsADirectoryError"
  | some _ => .error "OSError"

/-- src/operations/subjects/file.py lines 187-219 (older revision),
`HasOwner.apply`: a missing path is tolerated (failure report, no Change)
only when not modifying; under modify the `FileNotFoundError` is
re-raised.  On drift, one `shutil.chown(path, user=..., group=...)` call
fixes both fields before the Changes are recorded. -/
def hasOwnerApplyOld (path : String) (user group : Option String) (modify : Bool)
    (s : FsState) : FsResult :=
  match resolveEntry s path with
  | none =>
    if !modify then .ok (s, [], [.failed])
    else .error "FileNotFoundError"
  | some e =>
    match entryOwner e with
    | none => .error "owner of unmodelled entry kind"
    | some (oldUser, oldGroup) =>
      let newUser : Option String :=
        match user with
        | some u => if oldUser ≠ u then some u else none
        | none => none
      let newGroup : Option String :=
        match group with
        | some g => if oldGroup ≠ g then some g else none
        | none => none
      match newUser, newGroup with
      | none, none => .ok (s, [], [.passed])
      | nu, ng =>
        let s1 := match nu with
          | some u => if modify then chownUserAt s path u else s
          | none => s
        let s2 := match ng with
          | some g => if modify then chownGroupAt s1 path g else s1
          | none => s1
        let cs :=
          (match nu with | some u => [userChanged oldUser u] | none => [])
            ++ (match ng with | some g => [groupChanged oldGroup g] | none => [])
        .ok (s2, cs, [.plain])

/-- src/operations/subjects/file.py lines 228-244 (older revision),
`HasMode.apply`: a missing path is tolerated (failure report, no Change)
only when not modifying; under modify the `FileNotFoundError` is
re-raised. -/
def hasModeApplyOld (path : String) (mode : Nat) (modify : Bool)
    (s : FsState) : FsResult :=
  match fsLookup s path with
  | none =>
    if !modify then .ok (s, [], [.failed])
    else .error "FileNotFoundError"
  | some e =>
    let currentMode := entryModeLstat e
    if currentMode ≠ mode then
      let s2 := if modify then chmodAt s path mode else s
      .ok (s2, [modeChanged currentMode mode], [.plain])
    else .ok (s, [], [.plain])

/-! ### Secret wire format (src/caerbannog/secrets.py)

The scrypt KDF and AES-256-GCM live in an external library (Cryptodome);
they are parameters of the embedding (`CipherModel`), constrained in the
round-trip theorem exactly by the library's contract
(`decrypt_and_verify` inverts `encrypt_and_digest` under the same key, and
outputs are bytes).  Randomness (the fresh salt in `_derive_key` and the
AES nonce) is passed in explicitly.  Strings are handled as `List Char`;
bytes as `List Nat` (each < 256).  The module-level `_cached_keys` dict is
read by `_lookup_key` but never written anywhere in the repository, so the
lookup always falls through to `_rederive_key`; the embedding inlines
that. -/

def b64char (n : Nat) : Char :=
  if n < 26 then Char.ofNat (65 + n)
  else if n < 52 then Char.ofNat (97 + (n - 26))
  else if n < 62 then Char.ofNat (48 + (n - 52))
  else if n = 62 then Char.ofNat 43
  else Char.ofNat 47

def b64index (c : Char) : Option Nat :=
  let n := c.toNat
  if 65 ≤ n ∧ n ≤ 90 then some (n - 65)
  else if 97 ≤ n ∧ n ≤ 122 then some (n - 97 + 26)
  else if 48 ≤ n ∧ n ≤ 57 then some (n - 48 + 52)
  else if n = 43 then some 62
  else if n = 47 then some 63
  else none

def padChar : Char := Char.ofNat 61

def dollarChar : Char := Char.ofNat 36

def newlineChar : Char := Char.ofNat 10

/-- `base64.b64encode` (RFC 4648, with `=` padding). -/
def b64encodeBytes : List Nat → List Char
  | b1 :: b2 :: b3 :: rest =>
    b64char (b1 / 4) :: b64char ((b1 % 4) * 16 + b2 / 16) ::
      b64char ((b2 % 16) * 4 + b3 / 64) :: b64char (b3 % 64) ::
      b64encodeBytes rest
  | [b1, b2] =>
    [b64char (b1 / 4), b64char ((b1 % 4) * 16 + b2 / 16),
      b64char ((b2 % 16) * 4), padChar]
  | [b1] =>
    [b64char (b1 / 4), b64char ((b1 % 4) * 16), padChar, padChar]
  | [] => []

/-- `base64.b64decode` on well-formed input (4-character groups, padding
only in the final group; malformed input gives `none`). -/
def b64decodeChars : List Char → Option (List Nat)
  | [] => some []
  | c1 :: c2 :: c3 :: c4 :: rest =>
    (match b64index c1, b64index c2 with
     | some i1, some i2 =>
       if c3 = padChar ∧ c4 = padChar then
         if rest = [] then some [i1 * 4 + i2 / 16] else none
       else if c4 = padChar then
         (match b64index c3 with
          | some i3 =>
            if rest = [] then
              some [i1 * 4 + i2 / 16, (i2 % 16) * 16 + i3 / 4]
            else none
          | none => none)
       else
         (match b64index c3, b64index c4 with
          | some i3, some i4 =>
            (match b64decodeChars rest with
             | some bs =>
               some ((i1 * 4 + i2 / 16) :: ((i2 % 16) * 16 + i3 / 4) ::
                 ((i3 % 4) * 64 + i4) :: bs)
             | none => none)
          | _, _ => none)
     | _, _ => none)
  | _ => none

/-- `re.sub(r"\s", "", ...)` for the ASCII text the codec produces. -/
def isWsChar (c : Char) : Bool :=
  c == Char.ofNat 32 || c == Char.ofNat 9 || c == newlineChar ||
    c == Char.ofNat 13 || c == Char.ofNat 11 || c == Char.ofNat 12

def stripWs (l : List Char) : List Char :=
  l.filter (fun c => !isWsChar c)

/-- `re.findall(r".{1,80}", message)` for a message without newlines:
greedy 80-character chunks, the last one shorter.  Fuel-totalised
(`message.length` units always suffice). -/
def chunk80 : Nat → List Char → List (List Char)
  | 0, _ => []
  | _, [] => []
  | fuel + 1, l => l.take 80 :: chunk80 fuel (l.drop 80)

/-- `"\n".join(...)`. -/
def joinNL : List (List Char) → List Char
  | [] => []
  | [x] => x
  | x :: rest => x ++ newlineChar :: joinNL rest

/-- Python `text.split("$")`. -/
def splitDollar : List Char → List (List Char)
  | [] => [[]]
  | c :: rest =>
    match splitDollar rest with
    | [] => [[]]
    | s :: ss => if c = dollarChar then [] :: s :: ss else (c :: s) :: ss

/-- The external cryptography collaborators: `KDF.scrypt` (password and
encoded-salt string to a key) and AES-GCM `encrypt_and_digest`
(key and plaintext to nonce, tag and ciphertext — the nonce is random, so
it is part of the cipher value here) / `decrypt_and_verify`. -/
structure CipherModel where
  kdf : String → String → List Nat
  enc : List Nat → List Nat → List Nat × List Nat × List Nat
  dec : List Nat → List Nat → List Nat → List Nat → Option (List Nat)

def secretHeaderChars : List Char := "caerbannog".toList

/-- secrets.py lines 27-42, `encrypt(plaintext, password, pretty)`:
`$caerbannog$1$` followed by `salt$nonce$tag$ciphertext` (each base64);
pretty mode puts a newline after the version segment and wraps the rest at
80 columns.  `saltBytes` stands for `Random.get_random_bytes(32)`; note the
KDF is applied to the base64-ENCODED salt string, exactly as in
`_derive_key`. -/
def encrypt (C : CipherModel) (plaintext : List Nat) (password : String)
    (saltBytes : List Nat) (pretty : Bool) : List Char :=
  let salt := b64encodeBytes saltBytes
  let key := C.kdf password (String.mk salt)
  let ntc := C.enc key plaintext
  let message := salt ++ dollarChar :: b64encodeBytes ntc.1 ++
    dollarChar :: b64encodeBytes ntc.2.1 ++ dollarChar :: b64encodeBytes ntc.2.2
  if pretty then
    dollarChar :: secretHeaderChars ++ dollarChar :: Char.ofNat 49 ::
      dollarChar :: newlineChar :: joinNL (chunk80 message.length message)
  else
    dollarChar :: secretHeaderChars ++ dollarChar :: Char.ofNat 49 ::
      dollarChar :: message

/-- secrets.py lines 45-68, `decrypt(secret, password)`: strip all
whitespace, split on `$` into exactly 7 sections (the leading empty one is
ignored), validate header and version, base64-decode nonce, tag and
ciphertext (the salt section stays a string), re-derive the key
(`_lookup_key` always falls through to `_rederive_key`, since nothing in
the repository ever writes `_cached_keys`), and AES-decrypt. -/
def decrypt (C : CipherModel) (secret : List Char) (password : String) :
    Except String (List Nat) :=
  let trimmed := stripWs secret
  match splitDollar trimmed with
  | [_, header, version, salt, nonce, tag, ciphertext] =>
    if header ≠ secretHeaderChars then .error "Unknown secret format"
    else if version ≠ [Char.ofNat 49] then .error "Unknown secret format version"
    else
      match b64decodeChars nonce, b64decodeChars tag, b64decodeChars ciphertext with
      | some nb, some tb, some cb =>
        (match C.dec (C.kdf password (String.mk salt)) nb tb cb with
         | some pt => .ok pt
         | none => .error "MAC check failed")
      | _, _, _ => .error "Invalid base64 payload"
  | _ => .error "Unknown secret format"

/-- A trivial cipher model satisfying the library contract, used to
instantiate the round-trip theorem on concrete data. -/
def roundTripTestCipher : CipherModel :=
  ⟨fun _ _ => [], fun _ pt => ([0], [1], pt), fun _ _ _ c => some c⟩

/-- Structural induction for `Entries` alone (the `induction` tactic cannot
use the multi-motive recursor of the mutual family directly). -/
def Entries.induct {P : Entries → Prop} (nil : P .nil)
    (cons : ∀ k v rest, P rest → P (.cons k v rest)) : ∀ d, P d
  | .nil => nil
  | .cons k v rest => cons k v rest (Entries.induct nil cons rest)

/-- Induction following the 3-byte group structure of base64. -/
def threeStepInduct {P : List Nat → Prop} (h0 : P []) (h1 : ∀ b, P [b])
    (h2 : ∀ b c, P [b, c]) (h3 : ∀ b c d rest, P rest → P (b :: c :: d :: rest)) :
    ∀ l, P l
  | [] => h0
  | [b] => h1 b
  | [b, c] => h2 b c
  | b :: c :: d :: rest => h3 b c d rest (threeStepInduct h0 h1 h2 h3 rest)

end Caerbannog

/-! ### Theorems -/

namespace Caerbannog

theorem Entries.lookup_assign (d : Entries) (k : String) (v : Value) (k2 : String) :
    (d.assign k v).lookup k2 = if k2 = k then some v else d.lookup k2 := by
  induction d using Entries.induct with
  | nil =>
    simp only [Entries.assign, Entries.lookup]
    by_cases h : k2 = k
    · subst h; simp
    · rw [if_neg (fun hh => h hh.symm), if_neg h]
  | cons k0 v0 rest ih =>
    simp only [Entries.assign]
    by_cases h0 : k0 = k
    · subst h0
      rw [if_pos rfl]
      simp only [Entries.lookup]
      by_cases h2 : k2 = k0
      · subst h2; simp
      · rw [if_neg (fun hh => h2 hh.symm), if_neg h2,
          if_neg (fun hh => h2 hh.symm)]
    · rw [if_neg h0]
      simp only [Entries.lookup, ih]
      split_ifs with h1 h2
      · exact absurd (h1.trans h2) h0
      · rfl
      · rfl
      · rfl

theorem Entries.hasKey_iff (d : Entries) (k : String) :
    d.hasKey k = true ↔ k ∈ d.keys := by
  induction d using Entries.induct with
  | nil => simp [Entries.hasKey, Entries.lookup, Entries.keys]
  | cons k0 v0 rest ih =>
    simp only [Entries.hasKey, Entries.lookup, Entries.keys, List.mem_cons]
    simp only [Entries.hasKey] at ih
    by_cases h0 : k0 = k
    · subst h0; simp
    · rw [if_neg h0, ih]
      constructor
      · exact fun h => Or.inr h
      · rintro (h | h)
        · exact absurd h.symm h0
        · exact h

theorem Entries.hasKey_false_iff (d : Entries) (k : String) :
    d.hasKey k = false ↔ k ∉ d.keys := by
  rw [← Entries.hasKey_iff]
  cases d.hasKey k <;> simp

theorem Entries.lookup_eq_none_iff (d : Entries) (k : String) :
    d.lookup k = none ↔ k ∉ d.keys := by
  rw [← Entries.hasKey_false_iff, Entries.hasKey]
  cases d.lookup k <;> simp

theorem mem_keysUnion (base overlay : Entries) (k : String) :
    k ∈ keysUnion base overlay ↔ (base.hasKey k || overlay.hasKey k) = true := by
  simp only [keysUnion, List.mem_append, List.mem_filter, Bool.or_eq_true,
    Entries.hasKey_iff]
  by_cases hb : k ∈ base.keys
  · simp [hb]
  · have hf : base.hasKey k = false := (Entries.hasKey_false_iff base k).mpr hb
    simp [hb, hf, Entries.hasKey_iff]

theorem mergeLoop_ok_lookup (recur : Entries → Entries → Option (Except String Entries))
    (base overlay : Entries) :
    ∀ (keys : List String) (acc u : Entries),
      mergeLoop recur base overlay keys acc = some (.ok u) →
      ∀ k : String, u.lookup k =
        if k ∈ keys then
          match mergeStep recur base overlay k with
          | some (.ok v) => some v
          | _ => none
        else acc.lookup k := by
  intro keys
  induction keys with
  | nil =>
    intro acc u hstep k
    simp only [mergeLoop] at hstep
    cases hstep
    simp
  | cons k0 rest ih =>
    intro acc u hstep k
    simp only [mergeLoop] at hstep
    rcases hs : mergeStep recur base overlay k0 with _ | res
    · rw [hs] at hstep; cases hstep
    · rcases res with e | v
      · rw [hs] at hstep; cases hstep
      · rw [hs] at hstep
        have ih2 := ih _ _ hstep
        by_cases hkr : k ∈ rest
        · rw [if_pos (List.mem_cons_of_mem _ hkr)]
          rw [ih2 k, if_pos hkr]
        · by_cases hk0 : k = k0
          · subst hk0
            rw [if_pos (List.mem_cons_self _ _), ih2 k, if_neg hkr,
              Entries.lookup_assign, if_pos rfl, hs]
          · rw [if_neg (by simp [hk0, hkr])]
            rw [ih2 k, if_neg hkr, Entries.lookup_assign, if_neg hk0]

theorem mergeLoop_ok_step (recur : Entries → Entries → Option (Except String Entries))
    (base overlay : Entries) :
    ∀ (keys : List String) (acc u : Entries),
      mergeLoop recur base overlay keys acc = some (.ok u) →
      ∀ k ∈ keys, ∃ v, mergeStep recur base overlay k = some (.ok v) := by
  intro keys
  induction keys with
  | nil => intro acc u _ k hk; cases hk
  | cons k0 rest ih =>
    intro acc u hstep k hk
    simp only [mergeLoop] at hstep
    rcases hs : mergeStep recur base overlay k0 with _ | res
    · rw [hs] at hstep; cases hstep
    · rcases res with e | v
      · rw [hs] at hstep; cases hstep
      · rw [hs] at hstep
        rcases List.mem_cons.mp hk with h | h
        · subst h; exact ⟨v, hs⟩
        · exact ih _ _ hstep k h

theorem givenHint_of_no_hint (base overlay : Entries)
    (hb : base.hasKey CONFLICT_HINT = false)
    (ho : overlay.hasKey CONFLICT_HINT = false) :
    givenHint base overlay = .vnone := by
  unfold Entries.hasKey at hb ho
  unfold givenHint
  rcases h1 : overlay.lookup CONFLICT_HINT with _ | v
  · rcases h2 : base.lookup CONFLICT_HINT with _ | v
    · rfl
    · rw [h2] at hb; cases hb
  · rw [h1] at ho; cases ho

theorem initialEntries_lookup (base overlay : Entries) (k : String) :
    (initialEntries base overlay).lookup k =
      if k = CONFLICT_HINT then
        match givenHint base overlay with
        | .vnone => none
        | g => some (.vstr (pyStr g))
      else none := by
  unfold initialEntries
  rcases hg : givenHint base overlay with _ | b | n | s | l | d <;>
    simp only [Entries.lookup] <;>
    by_cases hk : k = CONFLICT_HINT <;>
    simp [hk, eq_comm]

end Caerbannog

namespace Caerbannog

theorem replaceEntries_lookup_notin (overlay : Entries) :
    ∀ (acc : Entries) (k : String), k ∉ overlay.keys →
      (replaceEntries overlay acc).lookup k = acc.lookup k := by
  induction overlay using Entries.induct with
  | nil => intro acc k _; rfl
  | cons k0 v0 rest ih =>
    intro acc k hk
    simp only [Entries.keys, List.mem_cons] at hk
    push_neg at hk
    simp only [replaceEntries]
    split_ifs with h0
    · exact ih acc k hk.2
    · rw [ih _ k hk.2, Entries.lookup_assign, if_neg hk.1]

theorem replaceEntries_lookup (overlay : Entries) (hnd : overlay.keys.Nodup) :
    ∀ (acc : Entries) (k : String),
      (replaceEntries overlay acc).lookup k =
        if k = CONFLICT_HINT then acc.lookup k
        else
          match overlay.lookup k with
          | some v => some v
          | none => acc.lookup k := by
  induction overlay using Entries.induct with
  | nil =>
    intro acc k
    simp only [replaceEntries, Entries.lookup]
    split_ifs <;> rfl
  | cons k0 v0 rest ih =>
    intro acc k
    simp only [Entries.keys, List.nodup_cons] at hnd
    simp only [replaceEntries, Entries.lookup]
    by_cases h0 : k0 = CONFLICT_HINT
    · rw [if_pos h0, ih hnd.2 acc k]
      by_cases hk : k = CONFLICT_HINT
      · rw [if_pos hk, if_pos hk]
      · rw [if_neg hk, if_neg hk, if_neg (fun hh : k0 = k => hk (hh ▸ h0))]
    · rw [if_neg h0, ih hnd.2 _ k]
      by_cases hk : k = CONFLICT_HINT
      · rw [if_pos hk, if_pos hk, Entries.lookup_assign,
          if_neg (fun hh : k = k0 => h0 (hh.symm.trans hk))]
      · rw [if_neg hk, if_neg hk]
        by_cases h0k : k0 = k
        · subst h0k
          have hrest : rest.lookup k0 = none :=
            (Entries.lookup_eq_none_iff _ _).mpr hnd.1
          have hass : (acc.assign k0 v0).lookup k0 = some v0 := by
            rw [Entries.lookup_assign, if_pos rfl]
          rw [if_pos rfl]
          simp [hrest, hass]
        · rw [if_neg h0k]
          rcases hr : rest.lookup k with _ | v
          · simp only [hr]
            rw [Entries.lookup_assign, if_neg (fun hh => h0k hh.symm)]
          · simp only [hr]

theorem unifyF_merge_branch (fuel : Nat) (base overlay : Entries) (strategy : Value)
    (h1 : (effStrategy base overlay strategy).eqPyStr "error" = false)
    (h2 : (effStrategy base overlay strategy).eqPyStr "replace" = false) :
    unifyF (fuel + 1) base overlay strategy =
      mergeLoop (fun db dov => unifyF fuel db dov (effStrategy base overlay strategy))
        base overlay (keysUnion base overlay) (initialEntries base overlay) := by
  simp only [unifyF, h1, h2, Bool.false_eq_true, if_false]

theorem eqPyStr_true {v : Value} {s : String} (h : v.eqPyStr s = true) : v = .vstr s := by
  cases v <;> simp only [Value.eqPyStr] at h
  · cases h
  · cases h
  · cases h
  · rw [beq_iff_eq] at h
    rw [h]
  · cases h
  · cases h

theorem c6_general (fuel : Nat) (base overlay u : Entries)
    (hb : base.hasKey CONFLICT_HINT = false)
    (ho : overlay.hasKey CONFLICT_HINT = false)
    (hu : unifyF (fuel + 1) base overlay mergeV = some (.ok u)) :
    (∀ k, u.hasKey k = (base.hasKey k || overlay.hasKey k)) ∧
    (∀ k v, base.lookup k = some v → overlay.lookup k = none →
      u.lookup k = some v) ∧
    (∀ k v, base.lookup k = none → overlay.lookup k = some v →
      u.lookup k = some v) ∧
    (∀ k db dov, base.lookup k = some (.vdict db) →
      overlay.lookup k = some (.vdict dov) →
      ∃ w, unifyF fuel db dov mergeV = some (.ok w) ∧
        u.lookup k = some (.vdict w)) ∧
    (∀ k bv ov, base.lookup k = some bv → overlay.lookup k = some ov →
      (∀ db, bv = Value.vdict db → ∀ dov, ov = Value.vdict dov → False) →
      u.lookup k = some ov) := by
  have hgiven : givenHint base overlay = .vnone := givenHint_of_no_hint base overlay hb ho
  have heff : effStrategy base overlay mergeV = mergeV := by
    simp [effStrategy, hgiven, pyTruthy]
  have hinit : initialEntries base overlay = .nil := by
    simp [initialEntries, hgiven]
  rw [unifyF_merge_branch fuel base overlay mergeV (by rw [heff]; rfl) (by rw [heff]; rfl),
    heff, hinit] at hu
  have hlk := mergeLoop_ok_lookup _ base overlay _ _ _ hu
  have hst := mergeLoop_ok_step _ base overlay _ _ _ hu
  refine ⟨?_, ?_, ?_, ?_, ?_⟩
  · intro k
    by_cases hk : k ∈ keysUnion base overlay
    · have hkk := (mem_keysUnion base overlay k).mp hk
      rcases hst k hk with ⟨v, hv⟩
      have hlkk := hlk k
      rw [if_pos hk, hv] at hlkk
      have hres : u.hasKey k = true := by
        simp [Entries.hasKey, hlkk]
      rw [hres, hkk]
    · have hkk : (base.hasKey k || overlay.hasKey k) = false := by
        cases hww : (base.hasKey k || overlay.hasKey k)
        · rfl
        · exact absurd ((mem_keysUnion base overlay k).mpr hww) hk
      have hlkk := hlk k
      rw [if_neg hk] at hlkk
      have hres : u.hasKey k = false := by
        simp [Entries.hasKey, hlkk, Entries.lookup]
      rw [hres, hkk]
  · intro k v hbk hok
    have hk : k ∈ keysUnion base overlay := by
      rw [mem_keysUnion]
      simp [Entries.hasKey, hbk]
    have hlkk := hlk k
    rw [if_pos hk] at hlkk
    rw [hlkk]
    simp [mergeStep, hbk, hok]
  · intro k v hbk hok
    have hk : k ∈ keysUnion base overlay := by
      rw [mem_keysUnion]
      simp [Entries.hasKey, hok]
    have hlkk := hlk k
    rw [if_pos hk] at hlkk
    rw [hlkk]
    simp [mergeStep, hbk, hok]
  · intro k db dov hbk hok
    have hk : k ∈ keysUnion base overlay := by
      rw [mem_keysUnion]
      simp [Entries.hasKey, hbk]
    rcases hst k hk with ⟨v, hv⟩
    have hlkk := hlk k
    rw [if_pos hk, hv] at hlkk
    simp only [mergeStep, hbk, hok] at hv
    rcases hr : unifyF fuel db dov mergeV with _ | res
    · rw [hr] at hv; cases hv
    · rcases res with e | w
      · rw [hr] at hv; cases hv
      · rw [hr] at hv
        cases hv
        exact ⟨w, rfl, hlkk⟩
  · intro k bv ov hbk hok hnd
    have hk : k ∈ keysUnion base overlay := by
      rw [mem_keysUnion]
      simp [Entries.hasKey, hbk]
    have hms : mergeStep (fun db dov => unifyF fuel db dov mergeV) base overlay k
        = some (.ok ov) := by
      cases bv <;> cases ov <;>
        first
        | exact (hnd _ rfl _ rfl).elim
        | simp [mergeStep, hbk, hok]
    have hlkk := hlk k
    rw [if_pos hk, hms] at hlkk
    exact hlkk

/-- Claim C6: for variable trees without a sentinel at the current level,
`unify(base, overlay, MERGE)` succeeds with a tree whose key set is the
union of both key sets; a key on one side only keeps that side's value; a
key on both sides maps to the recursive `unify` of the two values when both
are trees (the recursive call re-resolves its own sentinel), and to
overlay's value otherwise.  The three concrete examples of the claim are
included (Python dict equality ignores key order; the stated entry order is
the canonical iteration order fixed in `keysUnion`). -/
theorem claim_C6_merge :
    (∀ (fuel : Nat) (base overlay u : Entries),
      base.hasKey CONFLICT_HINT = false →
      overlay.hasKey CONFLICT_HINT = false →
      unifyF (fuel + 1) base overlay mergeV = some (.ok u) →
      (∀ k, u.hasKey k = (base.hasKey k || overlay.hasKey k)) ∧
      (∀ k v, base.lookup k = some v → overlay.lookup k = none →
        u.lookup k = some v) ∧
      (∀ k v, base.lookup k = none → overlay.lookup k = some v →
        u.lookup k = some v) ∧
      (∀ k db dov, base.lookup k = some (.vdict db) →
        overlay.lookup k = some (.vdict dov) →
        ∃ w, unifyF fuel db dov mergeV = some (.ok w) ∧
          u.lookup k = some (.vdict w)) ∧
      (∀ k bv ov, base.lookup k = some bv → overlay.lookup k = some ov →
        (∀ db, bv = Value.vdict db → ∀ dov, ov = Value.vdict dov → False) →
        u.lookup k = some ov)) ∧
    unify (.cons "a" (.vint 1) .nil) (.cons "b" (.vint 2) .nil) mergeV
      = some (.ok (.cons "a" (.vint 1) (.cons "b" (.vint 2) .nil))) ∧
    unify (.cons "a" (.vint 1) .nil) (.cons "a" (.vint 2) .nil) mergeV
      = some (.ok (.cons "a" (.vint 2) .nil)) ∧
    unify (.cons "a" (.vdict (.cons "x" (.vint 1) .nil)) .nil)
        (.cons "a" (.vdict (.cons "y" (.vint 2) .nil)) .nil) mergeV
      = some (.ok (.cons "a"
          (.vdict (.cons "x" (.vint 1) (.cons "y" (.vint 2) .nil))) .nil)) :=
  ⟨fun fuel base overlay u hb ho hu => c6_general fuel base overlay u hb ho hu,
    rfl, rfl, rfl⟩

theorem claim_C6_witness :
    ∃ w, unifyF 4 (.cons "x" (.vint 1) .nil) (.cons "y" (.vint 2) .nil) mergeV
        = some (.ok w) ∧
      (Entries.cons "a"
          (.vdict (.cons "x" (.vint 1) (.cons "y" (.vint 2) .nil))) .nil).lookup "a"
        = some (.vdict w) :=
  (claim_C6_merge.1 4
      (.cons "a" (.vdict (.cons "x" (.vint 1) .nil)) .nil)
      (.cons "a" (.vdict (.cons "y" (.vint 2) .nil)) .nil)
      (.cons "a" (.vdict (.cons "x" (.vint 1) (.cons "y" (.vint 2) .nil))) .nil)
      rfl rfl rfl).2.2.2.1 "a" _ _ rfl rfl

/-- Claim C7: when the strategy resolved at a level (sentinel key if
present, overlay's sentinel winning, else the strategy argument) is
REPLACE, the result consists of overlay's non-sentinel keys with their
values (base-only keys dropped) plus the sentinel entry exactly when a
sentinel was given; REPLACE performs no recursion, so the sentinel cannot
be inherited by nested subtrees.  Includes the claim's concrete example. -/
theorem claim_C7_replace :
    (∀ (fuel : Nat) (base overlay : Entries) (strategy : Value),
      (effStrategy base overlay strategy).eqPyStr "replace" = true →
      overlay.keys.Nodup →
      ∃ u, unifyF (fuel + 1) base overlay strategy = some (.ok u) ∧
        (∀ k, k ≠ CONFLICT_HINT → u.lookup k = overlay.lookup k) ∧
        u.lookup CONFLICT_HINT =
          (match givenHint base overlay with
           | .vnone => none
           | g => some (.vstr (pyStr g)))) ∧
    unify (.cons "a" (.vint 1) (.cons "$conflict" (.vstr "replace") .nil))
        (.cons "b" (.vint 2) .nil) mergeV
      = some (.ok (.cons "$conflict" (.vstr "replace")
          (.cons "b" (.vint 2) .nil))) := by
  constructor
  · intro fuel base overlay strategy h hnd
    have heff := eqPyStr_true h
    have h1 : (effStrategy base overlay strategy).eqPyStr "error" = false := by
      rw [heff]; rfl
    refine ⟨replaceEntries overlay (initialEntries base overlay), ?_, ?_, ?_⟩
    · simp only [unifyF, h1, Bool.false_eq_true, if_false, h, if_true]
    · intro k hk
      rw [replaceEntries_lookup overlay hnd _ k, if_neg hk]
      rcases hr : overlay.lookup k with _ | v
      · simp only [hr]
        rw [initialEntries_lookup, if_neg hk]
      · simp only [hr]
    · rw [replaceEntries_lookup overlay hnd _ CONFLICT_HINT, if_pos rfl,
        initialEntries_lookup, if_pos rfl]
  · rfl

theorem claim_C7_witness :
    ∃ u, unifyF 4 (.cons "a" (.vint 1) (.cons "$conflict" (.vstr "replace") .nil))
        (.cons "b" (.vint 2) .nil) mergeV = some (.ok u) ∧
      (∀ k, k ≠ CONFLICT_HINT →
        u.lookup k = (Entries.cons "b" (.vint 2) .nil).lookup k) ∧
      u.lookup CONFLICT_HINT =
        (match givenHint
            (.cons "a" (.vint 1) (.cons "$conflict" (.vstr "replace") .nil))
            (.cons "b" (.vint 2) .nil) with
         | .vnone => none
         | g => some (.vstr (pyStr g))) :=
  claim_C7_replace.1 3
    (.cons "a" (.vint 1) (.cons "$conflict" (.vstr "replace") .nil))
    (.cons "b" (.vint 2) .nil) mergeV rfl (by simp [Entries.keys])

/-- Claim C8: whenever the resolved strategy at a level is ERROR, `unify`
raises, regardless of any actual key conflict — demonstrated on a base and
overlay that share no keys at all. -/
theorem claim_C8_error :
    (∀ (fuel : Nat) (base overlay : Entries) (strategy : Value),
      (effStrategy base overlay strategy).eqPyStr "error" = true →
      unifyF (fuel + 1) base overlay strategy
        = some (.error "Refusing to merge conflicting dictionaries.")) ∧
    (∀ k ∈ (Entries.cons "a" (.vint 1) .nil).keys,
      k ∉ (Entries.cons "b" (.vint 2)
        (.cons "$conflict" (.vstr "error") .nil)).keys) ∧
    unify (.cons "a" (.vint 1) .nil)
        (.cons "b" (.vint 2) (.cons "$conflict" (.vstr "error") .nil)) mergeV
      = some (.error "Refusing to merge conflicting dictionaries.") := by
  refine ⟨?_, by decide, rfl⟩
  intro fuel base overlay strategy h
  simp only [unifyF, h, if_true]

theorem claim_C8_witness :
    unifyF 1 .nil (.cons "$conflict" (.vstr "error") .nil) mergeV
      = some (.error "Refusing to merge conflicting dictionaries.") :=
  claim_C8_error.1 0 .nil (.cons "$conflict" (.vstr "error") .nil) mergeV rfl

end Caerbannog

namespace Caerbannog

/-- Claim C3: the resolution order is the DFS-minimum-depth order sorted by
descending depth then ascending name; on the two example graphs the code
(`getTargetsDepthFirst`, embedding `_get_targets_depth_first`) and the
spec-side characterisation (`specResolveOrder`, built from reachability at
exact depths) both produce the claimed orders, in particular `c0` at its
minimum depth 1 in the second graph. -/
theorem claim_C3_resolution_order :
    getTargetsDepthFirst exGraph1 "a0" 100
      = some ["c0", "c1", "c2", "b0", "b1", "a0"] ∧
    getTargetsDepthFirst exGraph2 "a0" 100
      = some ["b0", "c0", "a0"] ∧
    specResolveOrder exGraph1 "a0" 10
      = ["c0", "c1", "c2", "b0", "b1", "a0"] ∧
    specResolveOrder exGraph2 "a0" 10
      = ["b0", "c0", "a0"] ∧
    specMinDepth exGraph2 "a0" "c0" 10 = some 1 :=
  ⟨by decide, by decide, by decide, by decide, by decide⟩

theorem c10_general (path : List String) :
    ∀ (current dflt : Value),
      (∀ v, followPathV current path = some v →
        getVarLoop dflt current path = .ok v) ∧
      (pathMisses current path = true →
        getVarLoop dflt current path = .ok dflt) := by
  induction path with
  | nil =>
    intro current dflt
    constructor
    · intro v hv
      simp only [followPathV] at hv
      cases hv
      rfl
    · intro h
      cases current <;> simp [pathMisses] at h
  | cons p rest ih =>
    intro current dflt
    constructor
    · intro v hv
      rcases current with _ | b | n | s | l | d
      · simp [followPathV] at hv
      · simp [followPathV] at hv
      · simp [followPathV] at hv
      · simp [followPathV] at hv
      · simp [followPathV] at hv
      · simp only [followPathV] at hv
        rcases hl : d.lookup p with _ | w
        · rw [hl] at hv; cases hv
        · rw [hl] at hv
          simp only [getVarLoop, hl]
          exact (ih w dflt).1 v hv
    · intro h
      rcases current with _ | b | n | s | l | d
      · simp [pathMisses] at h
      · simp [pathMisses] at h
      · simp [pathMisses] at h
      · simp [pathMisses] at h
      · simp [pathMisses] at h
      · simp only [pathMisses] at h
        rcases hl : d.lookup p with _ | w
        · simp only [getVarLoop, hl]
        · rw [hl] at h
          simp only [getVarLoop, hl]
          exact (ih w dflt).2 h

/-- Claim C10: `get_var(name, default)` follows the dot-separated path; when
every traversed value is a mapping it returns the reached value if all
segments are present, and the default as soon as a segment is absent at its
level.  The embedding is a pure function of the variable tree, so the tree
is unchanged by the lookup by construction. -/
theorem claim_C10_get_var (vars : Entries) (name : String) (dflt : Value) :
    (∀ v, followPathV (.vdict vars) (splitDots name) = some v →
      get_var vars name dflt = .ok v) ∧
    (pathMisses (.vdict vars) (splitDots name) = true →
      get_var vars name dflt = .ok dflt) :=
  c10_general (splitDots name) (.vdict vars) dflt

theorem claim_C10_witness :
    get_var (.cons "a" (.vdict (.cons "b" (.vint 1) .nil)) .nil) "a.b" .vnone
      = .ok (.vint 1) ∧
    get_var (.cons "a" (.vdict (.cons "b" (.vint 1) .nil)) .nil) "a.c" .vnone
      = .ok .vnone :=
  ⟨(claim_C10_get_var (.cons "a" (.vdict (.cons "b" (.vint 1) .nil)) .nil)
      "a.b" .vnone).1 (.vint 1) rfl,
   (claim_C10_get_var (.cons "a" (.vdict (.cons "b" (.vint 1) .nil)) .nil)
      "a.c" .vnone).2 rfl⟩

end Caerbannog

namespace Caerbannog

theorem AssertionRec.changed_iff (a : AssertionRec) :
    a.changed = true ↔ a.changes ≠ [] := by
  simp only [AssertionRec.changed, decide_eq_true_eq]
  cases a.changes <;> simp

theorem changed_iff_exists_assertion :
    ∀ s : Subj, s.changed = true ↔ ∃ a ∈ s.assertions, a.changed = true := by
  refine Subj.inductPair
    (Q := fun l => SubjList.anyChanged l = true ↔
      ∃ a ∈ SubjList.assertionsAll l, a.changed = true) ?_ ?_ ?_
  · intro d own pre hQ
    show ((SubjList.assertionsAll pre ++ own).any AssertionRec.changed
        || SubjList.anyChanged pre) = true ↔
      ∃ a ∈ SubjList.assertionsAll pre ++ own, a.changed = true
    rw [Bool.or_eq_true, List.any_eq_true, hQ]
    constructor
    · rintro (h | ⟨a, ha, hc⟩)
      · exact h
      · exact ⟨a, List.mem_append_left _ ha, hc⟩
    · exact fun h => Or.inl h
  · simp [SubjList.anyChanged, SubjList.assertionsAll]
  · intro s rest hP hQ
    show (s.changed || SubjList.anyChanged rest) = true ↔
      ∃ a ∈ s.assertions ++ SubjList.assertionsAll rest, a.changed = true
    rw [Bool.or_eq_true, hP, hQ]
    constructor
    · rintro (⟨a, ha, hc⟩ | ⟨a, ha, hc⟩)
      · exact ⟨a, List.mem_append_left _ ha, hc⟩
      · exact ⟨a, List.mem_append_right _ ha, hc⟩
    · rintro ⟨a, ha, hc⟩
      rcases List.mem_append.mp ha with h | h
      · exact Or.inl ⟨a, h, hc⟩
      · exact Or.inr ⟨a, h, hc⟩

theorem assertions_mem_iff :
    ∀ s : Subj, ∀ a, a ∈ s.assertions ↔
      (a ∈ s.own ∨ ∃ p ∈ s.transPre, a ∈ p.own) := by
  refine Subj.inductPair
    (Q := fun l => ∀ a, a ∈ SubjList.assertionsAll l ↔
      ∃ p ∈ SubjList.transPreAll l, a ∈ p.own) ?_ ?_ ?_
  · intro d own pre hQ a
    show a ∈ SubjList.assertionsAll pre ++ own ↔
      a ∈ own ∨ ∃ p ∈ SubjList.transPreAll pre, a ∈ p.own
    rw [List.mem_append, hQ a]
    exact or_comm
  · intro a
    simp [SubjList.assertionsAll, SubjList.transPreAll]
  · intro s rest hP hQ a
    show a ∈ s.assertions ++ SubjList.assertionsAll rest ↔
      ∃ p ∈ s :: (s.transPre ++ SubjList.transPreAll rest), a ∈ p.own
    rw [List.mem_append, hP a, hQ a]
    constructor
    · rintro ((h | ⟨p, hp, hap⟩) | ⟨p, hp, hap⟩)
      · exact ⟨s, List.mem_cons_self _ _, h⟩
      · exact ⟨p, List.mem_cons_of_mem _ (List.mem_append_left _ hp), hap⟩
      · exact ⟨p, List.mem_cons_of_mem _ (List.mem_append_right _ hp), hap⟩
    · rintro ⟨p, hp, hap⟩
      rcases List.mem_cons.mp hp with rfl | hp2
      · exact Or.inl (Or.inl hap)
      · rcases List.mem_append.mp hp2 with h3 | h3
        · exact Or.inl (Or.inr ⟨p, h3, hap⟩)
        · exact Or.inr ⟨p, h3, hap⟩

/-- Claim C2: a Subject's `changed()` is true iff one of its own assertions
recorded a Change, or some transitively-reachable prerequisite Subject has
an assertion that recorded a Change. -/
theorem claim_C2_subject_changed (s : Subj) :
    s.changed = true ↔
      ((∃ a ∈ s.own, a.changes ≠ []) ∨
        ∃ p ∈ s.transPre, ∃ a ∈ p.own, a.changes ≠ []) := by
  rw [changed_iff_exists_assertion]
  constructor
  · rintro ⟨a, ha, hc⟩
    rw [AssertionRec.changed_iff] at hc
    rcases (assertions_mem_iff s a).mp ha with h | ⟨p, hp, hap⟩
    · exact Or.inl ⟨a, h, hc⟩
    · exact Or.inr ⟨p, hp, a, hap, hc⟩
  · rintro (⟨a, ha, hc⟩ | ⟨p, hp, a, hap, hc⟩)
    · exact ⟨a, (assertions_mem_iff s a).mpr (Or.inl ha),
        (AssertionRec.changed_iff a).mpr hc⟩
    · exact ⟨a, (assertions_mem_iff s a).mpr (Or.inr ⟨p, hp, hap⟩),
        (AssertionRec.changed_iff a).mpr hc⟩

end Caerbannog

namespace Caerbannog

theorem fired_not_mem_summary (h : HandlerR) : HEvent.fired ∉ handlerSummary h := by
  simp only [handlerSummary, List.mem_map]
  rintro ⟨s, _, hs⟩
  by_cases hc : s.changed = true <;> simp [hc] at hs

theorem countFires_append (a b : List HEvent) :
    countFires (a ++ b) = countFires a + countFires b := by
  simp [countFires, List.filter_append]

theorem countFires_cons (e : HEvent) (l : List HEvent) :
    countFires (e :: l) = (if isFired e then 1 else 0) + countFires l := by
  by_cases he : isFired e <;>
    simp [countFires, List.filter_cons, he, Nat.add_comm]

theorem countFires_summary (h : HandlerR) : countFires (handlerSummary h) = 0 := by
  simp only [countFires, List.length_eq_zero, List.filter_eq_nil_iff]
  intro e he
  rcases List.mem_map.mp he with ⟨s, _, hs⟩
  by_cases hc : s.changed = true <;> simp [hc] at hs <;> simp [← hs, isFired]

theorem countFires_calls (l : List Subj) :
    countFires (l.map fun t => HEvent.applySubject t.description) = 0 := by
  simp only [countFires, List.length_eq_zero, List.filter_eq_nil_iff]
  intro e he
  rcases List.mem_map.mp he with ⟨s, _, hs⟩
  simp [← hs, isFired]

theorem countFires_apply (h : HandlerR) :
    countFires h.apply = if h.listen.any Subj.changed then 1 else 0 := by
  by_cases hc : h.listen.any Subj.changed = true
  · rw [if_pos hc]
    simp only [HandlerR.apply, hc, if_true]
    rw [countFires_cons, countFires_append, countFires_summary, countFires_calls]
    rfl
  · rw [if_neg hc]
    simp only [HandlerR.apply, hc, if_false]
    by_cases hg : h.generated = true
    · rw [hg]
      rfl
    · have hg2 : h.generated = false := by
        cases hgg : h.generated
        · rfl
        · exact absurd hgg hg
      rw [hg2]
      show countFires (.skipped :: handlerSummary h) = 0
      rw [countFires_cons, countFires_summary]
      rfl

theorem runHandlers_cons (h : HandlerR) (rest : List HandlerR) :
    runHandlers (h :: rest) = h.apply ++ runHandlers rest := by
  simp [runHandlers]

/-- Claim C5: a Handler fires iff at least one listened Subject changed;
it fires at most once per run (exactly once when fired, never otherwise);
when fired it applies its call Subjects in order after the summary; a
non-fired generated Handler logs nothing (no skip report), while a
non-fired user Handler logs the skip; `run_handlers` runs every handler
once, in registration order, and handlers run only when the role's
configuration logic returned successfully. -/
theorem claim_C5_handler_fires :
    (∀ h : HandlerR, HEvent.fired ∈ h.apply ↔ ∃ s ∈ h.listen, s.changed = true) ∧
    (∀ h : HandlerR, countFires h.apply = if h.listen.any Subj.changed then 1 else 0) ∧
    (∀ h : HandlerR, countFires h.apply ≤ 1) ∧
    (∀ h : HandlerR, (∃ s ∈ h.listen, s.changed = true) →
      h.apply = .fired :: (handlerSummary h
        ++ h.call.map fun t => .applySubject t.description)) ∧
    (∀ h : HandlerR, h.generated = true → (∀ s ∈ h.listen, s.changed = false) →
      h.apply = []) ∧
    (∀ h : HandlerR, h.generated = false → (∀ s ∈ h.listen, s.changed = false) →
      h.apply = .skipped :: handlerSummary h) ∧
    (∀ (h : HandlerR) (rest : List HandlerR),
      runHandlers (h :: rest) = h.apply ++ runHandlers rest) ∧
    (∀ hs : List HandlerR,
      countFires (runHandlers hs)
        = (hs.filter fun h => h.listen.any Subj.changed).length) ∧
    (∀ hs : List HandlerR, applyRoleHandlerEvents (.ok hs) = runHandlers hs) ∧
    (∀ e : String, applyRoleHandlerEvents (.error e) = []) := by
  have hnotany : ∀ h : HandlerR, (∀ s ∈ h.listen, s.changed = false) →
      ¬(h.listen.any Subj.changed = true) := by
    intro h hall hany
    rcases List.any_eq_true.mp hany with ⟨s, hs, hc⟩
    rw [hall s hs] at hc
    cases hc
  refine ⟨?_, countFires_apply, ?_, ?_, ?_, ?_, runHandlers_cons, ?_, fun _ => rfl,
    fun _ => rfl⟩
  · intro h
    by_cases hc : h.listen.any Subj.changed = true
    · simp only [HandlerR.apply, hc, if_true]
      constructor
      · intro _
        exact List.any_eq_true.mp hc
      · intro _
        exact List.mem_cons_self _ _
    · simp only [HandlerR.apply, hc, if_false]
      constructor
      · intro hmem
        exfalso
        by_cases hg : h.generated = true
        · rw [hg] at hmem
          simp at hmem
        · have hg2 : h.generated = false := by
            cases hgg : h.generated
            · rfl
            · exact absurd hgg hg
          rw [hg2] at hmem
          have hmem2 : HEvent.fired ∈ HEvent.skipped :: handlerSummary h := hmem
          rcases List.mem_cons.mp hmem2 with h1 | h1
          · exact HEvent.noConfusion h1
          · exact fired_not_mem_summary h h1
      · intro hex
        exact absurd (List.any_eq_true.mpr hex) hc
  · intro h
    rw [countFires_apply h]
    by_cases hc : h.listen.any Subj.changed = true <;> simp [hc]
  · intro h hex
    simp only [HandlerR.apply, List.any_eq_true.mpr hex, if_true]
  · intro h hg hall
    simp [HandlerR.apply, hnotany h hall, hg]
  · intro h hg hall
    simp [HandlerR.apply, hnotany h hall, hg]
  · intro hs
    induction hs with
    | nil => rfl
    | cons h rest ih =>
      rw [runHandlers_cons, countFires_append, countFires_apply, ih, List.filter_cons]
      by_cases hc : h.listen.any Subj.changed = true <;> simp [hc, Nat.add_comm]

theorem claim_C5_witness :
    HandlerR.apply ⟨[Subj.mk "unit file"
        [⟨"has content", [⟨"content changed", []⟩]⟩] .nil],
      [Subj.mk "restart service" [] .nil], false⟩
      = .fired :: (handlerSummary ⟨[Subj.mk "unit file"
          [⟨"has content", [⟨"content changed", []⟩]⟩] .nil],
        [Subj.mk "restart service" [] .nil], false⟩
        ++ [Subj.mk "restart service" [] .nil].map
            fun t => .applySubject t.description) :=
  claim_C5_handler_fires.2.2.2.1 _
    ⟨Subj.mk "unit file" [⟨"has content", [⟨"content changed", []⟩]⟩] .nil,
      List.mem_cons_self _ _, rfl⟩

end Caerbannog

namespace Caerbannog

/-- Claim C1 (code bug): the idempotence contract fails for `IsSymlink`.
Applying `IsSymlink` in modify mode to a path occupied by a directory
removes the directory but — unlike the sibling `IsFile`/`IsDirectory`
branch structure and the spec's "remove it then create the desired kind" —
creates no symlink, so re-evaluating the same assertion against the
resulting state records a `SymlinkCreated` Change instead of zero Changes.
The final two conjuncts show the intended one-pass convergence on the same
shape for `IsFile` (remove, create, then a clean pass). -/
theorem claim_C1_issymlink_not_idempotent :
    isSymlinkApply "/etc/app" "/srv/cfg" true
        [("/etc/app", FsEntry.dir "root" "root" 493)]
      = .ok ([], [directoryRemoved], [.changedRep]) ∧
    isSymlinkApply "/etc/app" "/srv/cfg" true []
      = .ok ([("/etc/app", .symlink "/srv/cfg")], [symlinkCreated], [.changedRep]) ∧
    [symlinkCreated] ≠ ([] : List Change) ∧
    isFileApply "/etc/app" true ⟨"root", "root", 420⟩
        [("/etc/app", FsEntry.dir "root" "root" 493)]
      = .ok ([("/etc/app", FsEntry.file (.text "") "root" "root" 420)],
          [directoryRemoved, fileCreated], [.changedRep]) ∧
    isFileApply "/etc/app" true ⟨"root", "root", 420⟩
        [("/etc/app", FsEntry.file (.text "") "root" "root" 420)]
      = .ok ([("/etc/app", FsEntry.file (.text "") "root" "root" 420)],
          [], [.passed]) :=
  ⟨rfl, rfl, List.cons_ne_nil _ _, rfl, rfl⟩

/-- Claim C4 counterexample: in the current revision a missing path under
modify mode is NOT a fatal error for `HasOwner`/`HasMode` — both return
normally with a failure report and zero Changes. -/
theorem claim_C4_counterexample :
    hasModeApply "/missing" 420 true [] = .ok ([], [], [.failed]) ∧
    hasOwnerApply "/missing" (some "root") (some "root") true []
      = .ok ([], [], [.failed]) :=
  ⟨rfl, rfl⟩

/-- Claim C4, amended: in the current revision (caerbannog/operations/
subjects/file.py) `HasOwner` and `HasMode` tolerate a missing path in BOTH
modes — they report a failure and record no Change, raising nothing; only
the older revision (src/operations/subjects/file.py) re-raises the
`FileNotFoundError` under modify mode, exactly as the claim states. -/
theorem claim_C4_missing_path :
    (∀ (modify : Bool) (s : FsState) (path : String) (u g : Option String)
        (mode : Nat), fsLookup s path = none →
      hasOwnerApply path u g modify s = .ok (s, [], [.failed]) ∧
      hasModeApply path mode modify s = .ok (s, [], [.failed])) ∧
    (∀ (s : FsState) (path : String) (u g : Option String) (mode : Nat),
      fsLookup s path = none →
      hasOwnerApplyOld path u g true s = .error "FileNotFoundError" ∧
      hasModeApplyOld path mode true s = .error "FileNotFoundError" ∧
      hasOwnerApplyOld path u g false s = .ok (s, [], [.failed]) ∧
      hasModeApplyOld path mode false s = .ok (s, [], [.failed])) := by
  constructor
  · intro modify s path u g mode h
    constructor
    · simp [hasOwnerApply, resolveEntry, h]
    · simp [hasModeApply, h]
  · intro s path u g mode h
    refine ⟨?_, ?_, ?_, ?_⟩
    · simp [hasOwnerApplyOld, resolveEntry, h]
    · simp [hasModeApplyOld, h]
    · simp [hasOwnerApplyOld, resolveEntry, h]
    · simp [hasModeApplyOld, h]

theorem claim_C4_witness :
    hasOwnerApply "/conf" (some "root") none false [] = .ok ([], [], [.failed]) ∧
    hasModeApply "/conf" 493 false [] = .ok ([], [], [.failed]) :=
  claim_C4_missing_path.1 false [] "/conf" (some "root") none 493 rfl

end Caerbannog

namespace Caerbannog

theorem b64index_b64char : ∀ n, n < 64 → b64index (b64char n) = some n := by decide

theorem b64char_notPad : ∀ n, n < 64 → b64char n ≠ padChar := by decide

theorem b64char_notDollar : ∀ n, n < 64 → b64char n ≠ dollarChar := by decide

theorem b64char_notWs : ∀ n, n < 64 → isWsChar (b64char n) = false := by decide

theorem b64encode_chars :
    ∀ bs : List Nat, (∀ b ∈ bs, b < 256) →
      ∀ c ∈ b64encodeBytes bs, isWsChar c = false ∧ c ≠ dollarChar := by
  intro bs
  induction bs using threeStepInduct with
  | h0 => intro _ c hc; cases hc
  | h1 b =>
    intro hr c hc
    have hb : b < 256 := hr b (by simp)
    simp only [b64encodeBytes, List.mem_cons, List.not_mem_nil, or_false] at hc
    rcases hc with rfl | rfl | rfl | rfl
    · exact ⟨b64char_notWs _ (by omega), b64char_notDollar _ (by omega)⟩
    · exact ⟨b64char_notWs _ (by omega), b64char_notDollar _ (by omega)⟩
    · exact ⟨by decide, by decide⟩
    · exact ⟨by decide, by decide⟩
  | h2 b c2 =>
    intro hr c hc
    have hb : b < 256 := hr b (by simp)
    have hc2 : c2 < 256 := hr c2 (by simp)
    simp only [b64encodeBytes, List.mem_cons, List.not_mem_nil, or_false] at hc
    rcases hc with rfl | rfl | rfl | rfl
    · exact ⟨b64char_notWs _ (by omega), b64char_notDollar _ (by omega)⟩
    · exact ⟨b64char_notWs _ (by omega), b64char_notDollar _ (by omega)⟩
    · exact ⟨b64char_notWs _ (by omega), b64char_notDollar _ (by omega)⟩
    · exact ⟨by decide, by decide⟩
  | h3 b c2 d rest ih =>
    intro hr c hc
    have hb : b < 256 := hr b (by simp)
    have hc2 : c2 < 256 := hr c2 (by simp)
    have hd : d < 256 := hr d (by simp)
    simp only [b64encodeBytes, List.mem_cons] at hc
    rcases hc with rfl | rfl | rfl | rfl | h
    · exact ⟨b64char_notWs _ (by omega), b64char_notDollar _ (by omega)⟩
    · exact ⟨b64char_notWs _ (by omega), b64char_notDollar _ (by omega)⟩
    · exact ⟨b64char_notWs _ (by omega), b64char_notDollar _ (by omega)⟩
    · exact ⟨b64char_notWs _ (by omega), b64char_notDollar _ (by omega)⟩
    · exact ih (fun x hx => hr x (by simp [hx])) c h

theorem b64_roundtrip :
    ∀ bs : List Nat, (∀ b ∈ bs, b < 256) →
      b64decodeChars (b64encodeBytes bs) = some bs := by
  intro bs
  induction bs using threeStepInduct with
  | h0 => intro _; rfl
  | h1 b =>
    intro hr
    have hb : b < 256 := hr b (by simp)
    have e1 := b64index_b64char (b / 4) (by omega)
    have e2 := b64index_b64char (b % 4 * 16) (by omega)
    simp [b64encodeBytes, b64decodeChars, e1, e2]
    omega
  | h2 b c =>
    intro hr
    have hb : b < 256 := hr b (by simp)
    have hc : c < 256 := hr c (by simp)
    have e1 := b64index_b64char (b / 4) (by omega)
    have e2 := b64index_b64char (b % 4 * 16 + c / 16) (by omega)
    have e3 := b64index_b64char (c % 16 * 4) (by omega)
    have hp : b64char (c % 16 * 4) ≠ padChar := b64char_notPad _ (by omega)
    simp [b64encodeBytes, b64decodeChars, e1, e2, e3, hp]
    omega
  | h3 b c d rest ih =>
    intro hr
    have hb : b < 256 := hr b (by simp)
    have hc : c < 256 := hr c (by simp)
    have hd : d < 256 := hr d (by simp)
    have hrest := ih (fun x hx => hr x (by simp [hx]))
    have e1 := b64index_b64char (b / 4) (by omega)
    have e2 := b64index_b64char (b % 4 * 16 + c / 16) (by omega)
    have e3 := b64index_b64char (c % 16 * 4 + d / 64) (by omega)
    have e4 := b64index_b64char (d % 64) (by omega)
    have hp : b64char (d % 64) ≠ padChar := b64char_notPad _ (by omega)
    simp [b64encodeBytes, b64decodeChars, e1, e2, e3, e4, hp, hrest]
    omega

end Caerbannog

namespace Caerbannog

theorem stripWs_append (a b : List Char) :
    stripWs (a ++ b) = stripWs a ++ stripWs b := by
  simp [stripWs, List.filter_append]

theorem stripWs_of_noWs (l : List Char) (h : ∀ c ∈ l, isWsChar c = false) :
    stripWs l = l := by
  simp only [stripWs]
  rw [List.filter_eq_self]
  intro c hc
  simp [h c hc]

theorem chunk80_flatten :
    ∀ (fuel : Nat) (l : List Char), l.length ≤ fuel →
      (chunk80 fuel l).flatten = l := by
  intro fuel
  induction fuel with
  | zero =>
    intro l hl
    rw [List.length_eq_zero.mp (Nat.le_zero.mp hl)]
    rfl
  | succ f ih =>
    intro l hl
    cases l with
    | nil => rfl
    | cons c rest =>
      simp only [chunk80, List.flatten_cons]
      have hlen : (List.drop 80 (c :: rest)).length ≤ f := by
        simp only [List.length_drop, List.length_cons] at hl ⊢
        omega
      rw [ih _ hlen]
      exact List.take_append_drop 80 (c :: rest)

theorem chunk80_noWs (fuel : Nat) :
    ∀ (l : List Char), (∀ c ∈ l, isWsChar c = false) →
      ∀ ch ∈ chunk80 fuel l, stripWs ch = ch := by
  induction fuel with
  | zero =>
    intro l _ ch hch
    cases l <;> simp [chunk80] at hch
  | succ f ih =>
    intro l hl ch hch
    cases l with
    | nil => cases hch
    | cons c rest =>
      simp only [chunk80, List.mem_cons] at hch
      rcases hch with rfl | h
      · exact stripWs_of_noWs _ (fun x hx => hl x (List.take_subset _ _ hx))
      · exact ih _ (fun x hx => hl x (List.drop_subset _ _ hx)) ch h

theorem stripWs_joinNL :
    ∀ cs : List (List Char), stripWs (joinNL cs) = (cs.map stripWs).flatten := by
  intro cs
  induction cs with
  | nil => rfl
  | cons x rest ih =>
    cases rest with
    | nil => simp [joinNL]
    | cons y rest2 =>
      show stripWs (x ++ newlineChar :: joinNL (y :: rest2)) = _
      rw [stripWs_append]
      have hnl : stripWs (newlineChar :: joinNL (y :: rest2))
          = stripWs (joinNL (y :: rest2)) := by
        simp [stripWs, List.filter_cons, isWsChar]
      rw [hnl, ih]
      simp

theorem splitDollar_ne_nil : ∀ l : List Char, splitDollar l ≠ [] := by
  intro l
  induction l with
  | nil => simp [splitDollar]
  | cons c rest ih =>
    simp only [splitDollar]
    rcases h : splitDollar rest with _ | ⟨s, ss⟩
    · simp
    · split_ifs <;> simp

theorem splitDollar_no_dollar :
    ∀ l : List Char, (∀ c ∈ l, c ≠ dollarChar) → splitDollar l = [l] := by
  intro l
  induction l with
  | nil => intro _; rfl
  | cons c rest ih =>
    intro h
    simp only [splitDollar]
    rw [ih (fun x hx => h x (List.mem_cons_of_mem _ hx))]
    show (if c = dollarChar then [[], rest] else [c :: rest]) = [c :: rest]
    rw [if_neg (h c (List.mem_cons_self _ _))]

theorem splitDollar_append :
    ∀ (x y : List Char), (∀ c ∈ x, c ≠ dollarChar) →
      splitDollar (x ++ dollarChar :: y) = x :: splitDollar y := by
  intro x
  induction x with
  | nil =>
    intro y _
    show splitDollar (dollarChar :: y) = [] :: splitDollar y
    obtain ⟨s, ss, h⟩ : ∃ s ss, splitDollar y = s :: ss := by
      rcases hh : splitDollar y with _ | ⟨s, ss⟩
      · exact absurd hh (splitDollar_ne_nil y)
      · exact ⟨s, ss, rfl⟩
    simp only [splitDollar, h]
    show (if dollarChar = dollarChar then [] :: s :: ss else (dollarChar :: s) :: ss)
      = [] :: s :: ss
    rw [if_pos rfl]
  | cons c x2 ih =>
    intro y h
    show splitDollar (c :: (x2 ++ dollarChar :: y)) = (c :: x2) :: splitDollar y
    simp only [splitDollar]
    rw [ih y (fun a ha => h a (List.mem_cons_of_mem _ ha))]
    show (if c = dollarChar then [] :: x2 :: splitDollar y
        else (c :: x2) :: splitDollar y)
      = (c :: x2) :: splitDollar y
    rw [if_neg (h c (List.mem_cons_self _ _))]

end Caerbannog

namespace Caerbannog

theorem stripWs_cons_keep (c : Char) (l : List Char) (h : isWsChar c = false) :
    stripWs (c :: l) = c :: stripWs l := by
  simp [stripWs, List.filter_cons, h]

theorem stripWs_cons_drop (c : Char) (l : List Char) (h : isWsChar c = true) :
    stripWs (c :: l) = stripWs l := by
  simp [stripWs, List.filter_cons, h]

theorem map_stripWs_id :
    ∀ cs : List (List Char), (∀ ch ∈ cs, stripWs ch = ch) → cs.map stripWs = cs := by
  intro cs
  induction cs with
  | nil => intro _; rfl
  | cons x rest ih =>
    intro h
    simp only [List.map_cons]
    rw [h x (List.mem_cons_self _ _), ih (fun y hy => h y (List.mem_cons_of_mem _ hy))]

theorem stripWs_wrapped (msg : List Char) (h : ∀ c ∈ msg, isWsChar c = false) :
    stripWs (joinNL (chunk80 msg.length msg)) = msg := by
  rw [stripWs_joinNL,
    map_stripWs_id _ (chunk80_noWs msg.length msg h),
    chunk80_flatten msg.length msg (Nat.le_refl _)]

end Caerbannog

namespace Caerbannog

theorem splitSecret (hdr salt n t c : List Char)
    (hhdr : ∀ ch ∈ hdr, ch ≠ dollarChar)
    (hsalt : ∀ ch ∈ salt, ch ≠ dollarChar)
    (hn : ∀ ch ∈ n, ch ≠ dollarChar)
    (ht : ∀ ch ∈ t, ch ≠ dollarChar)
    (hc : ∀ ch ∈ c, ch ≠ dollarChar) :
    splitDollar (dollarChar :: hdr ++ dollarChar :: Char.ofNat 49 ::
        dollarChar :: (salt ++ dollarChar :: (n ++ dollarChar :: (t ++ dollarChar :: c))))
      = [[], hdr, [Char.ofNat 49], salt, n, t, c] := by
  have e1 := splitDollar_append [] (hdr ++ dollarChar :: Char.ofNat 49 ::
    dollarChar :: (salt ++ dollarChar :: (n ++ dollarChar :: (t ++ dollarChar :: c))))
    (fun ch hch => absurd hch (List.not_mem_nil ch))
  have e2 := splitDollar_append hdr (Char.ofNat 49 ::
    dollarChar :: (salt ++ dollarChar :: (n ++ dollarChar :: (t ++ dollarChar :: c)))) hhdr
  have e3 := splitDollar_append [Char.ofNat 49]
    (salt ++ dollarChar :: (n ++ dollarChar :: (t ++ dollarChar :: c)))
    (by intro ch hch; simp only [List.mem_singleton] at hch; subst hch; decide)
  have e4 := splitDollar_append salt (n ++ dollarChar :: (t ++ dollarChar :: c)) hsalt
  have e5 := splitDollar_append n (t ++ dollarChar :: c) hn
  have e6 := splitDollar_append t c ht
  have e7 := splitDollar_no_dollar c hc
  simp only [List.nil_append, List.cons_append] at e1 e2 e3 e4 e5 e6 e7 ⊢
  rw [e1, e2, e3, e4, e5, e6, e7]

end Caerbannog

namespace Caerbannog

theorem decrypt_eval (C : CipherModel) (pw : String)
    (s64 n64 t64 c64 secret : List Char)
    (hst : splitDollar (stripWs secret)
      = [[], secretHeaderChars, [Char.ofNat 49], s64, n64, t64, c64]) :
    decrypt C secret pw =
      match b64decodeChars n64, b64decodeChars t64, b64decodeChars c64 with
      | some nb, some tb, some cb =>
        (match C.dec (C.kdf pw (String.mk s64)) nb tb cb with
         | some pt => .ok pt
         | none => .error "MAC check failed")
      | _, _, _ => .error "Invalid base64 payload" := by
  simp only [decrypt, hst]
  rw [if_neg (fun hh => hh rfl), if_neg (fun hh => hh rfl)]

/-- Claim C9: `decrypt(encrypt(plaintext, password), password) == plaintext`
for every byte sequence and password, in both the pretty (wrapped) and the
plain encodings, for any KDF and any cipher satisfying the AES-GCM library
contract (byte-valued outputs, `decrypt_and_verify` inverting
`encrypt_and_digest` under the same key). -/
theorem claim_C9_secret_roundtrip
    (C : CipherModel) (plaintext saltBytes : List Nat) (password : String)
    (pretty : Bool)
    (hpt : ∀ b ∈ plaintext, b < 256)
    (hsaltB : ∀ b ∈ saltBytes, b < 256)
    (hwf : ∀ key pt, (∀ b ∈ pt, b < 256) →
      (∀ b ∈ (C.enc key pt).1, b < 256) ∧
      (∀ b ∈ (C.enc key pt).2.1, b < 256) ∧
      (∀ b ∈ (C.enc key pt).2.2, b < 256) ∧
      C.dec key (C.enc key pt).1 (C.enc key pt).2.1 (C.enc key pt).2.2 = some pt) :
    decrypt C (encrypt C plaintext password saltBytes pretty) password
      = .ok plaintext := by
  obtain ⟨hn, ht, hc, hdec⟩ :=
    hwf (C.kdf password (String.mk (b64encodeBytes saltBytes))) plaintext hpt
  have hsC := b64encode_chars saltBytes hsaltB
  simp only [encrypt]
  generalize hS : b64encodeBytes saltBytes = s64 at hsC hn ht hc hdec ⊢
  generalize hE : C.enc (C.kdf password (String.mk s64)) plaintext = ntc
    at hn ht hc hdec ⊢
  obtain ⟨nB, tB, cB⟩ := ntc
  dsimp only at hn ht hc hdec ⊢
  have hnC := b64encode_chars nB hn
  have htC := b64encode_chars tB ht
  have hcC := b64encode_chars cB hc
  have hdN := b64_roundtrip nB hn
  have hdT := b64_roundtrip tB ht
  have hdCc := b64_roundtrip cB hc
  generalize hN : b64encodeBytes nB = n64 at hnC hdN ⊢
  generalize hT : b64encodeBytes tB = t64 at htC hdT ⊢
  generalize hCg : b64encodeBytes cB = c64 at hcC hdCc ⊢
  simp only [List.append_assoc, List.cons_append]
  have hMsgWs : ∀ ch ∈ s64 ++ dollarChar ::
      (n64 ++ dollarChar :: (t64 ++ dollarChar :: c64)), isWsChar ch = false := by
    intro ch hch
    simp only [List.mem_append, List.mem_cons] at hch
    rcases hch with h | rfl | h | rfl | h | rfl | h
    · exact (hsC ch h).1
    · decide
    · exact (hnC ch h).1
    · decide
    · exact (htC ch h).1
    · decide
    · exact (hcC ch h).1
  have hsp := splitSecret secretHeaderChars s64 n64 t64 c64
    (by decide) (fun ch h => (hsC ch h).2) (fun ch h => (hnC ch h).2)
    (fun ch h => (htC ch h).2) (fun ch h => (hcC ch h).2)
  simp only [List.cons_append] at hsp
  cases pretty
  · rw [if_neg (by simp : ¬(false = true))]
    have hstr : stripWs (dollarChar :: (secretHeaderChars ++ dollarChar ::
        Char.ofNat 49 :: dollarChar :: (s64 ++ dollarChar ::
          (n64 ++ dollarChar :: (t64 ++ dollarChar :: c64)))))
        = dollarChar :: (secretHeaderChars ++ dollarChar :: Char.ofNat 49 ::
          dollarChar :: (s64 ++ dollarChar ::
            (n64 ++ dollarChar :: (t64 ++ dollarChar :: c64)))) := by
      rw [stripWs_cons_keep _ _ (by decide), stripWs_append,
        stripWs_of_noWs secretHeaderChars (by decide),
        stripWs_cons_keep _ _ (by decide), stripWs_cons_keep _ _ (by decide),
        stripWs_cons_keep _ _ (by decide), stripWs_of_noWs _ hMsgWs]
    rw [decrypt_eval C password s64 n64 t64 c64 _ (by rw [hstr]; exact hsp)]
    simp only [hdN, hdT, hdCc, hdec]
  · rw [if_pos rfl]
    have hstr : stripWs (dollarChar :: (secretHeaderChars ++ dollarChar ::
        Char.ofNat 49 :: dollarChar :: newlineChar ::
          joinNL (chunk80 (s64 ++ dollarChar ::
            (n64 ++ dollarChar :: (t64 ++ dollarChar :: c64))).length
            (s64 ++ dollarChar :: (n64 ++ dollarChar :: (t64 ++ dollarChar :: c64))))))
        = dollarChar :: (secretHeaderChars ++ dollarChar :: Char.ofNat 49 ::
          dollarChar :: (s64 ++ dollarChar ::
            (n64 ++ dollarChar :: (t64 ++ dollarChar :: c64)))) := by
      rw [stripWs_cons_keep _ _ (by decide), stripWs_append,
        stripWs_of_noWs secretHeaderChars (by decide),
        stripWs_cons_keep _ _ (by decide), stripWs_cons_keep _ _ (by decide),
        stripWs_cons_keep _ _ (by decide), stripWs_cons_drop _ _ (by decide),
        stripWs_wrapped _ hMsgWs]
    rw [decrypt_eval C password s64 n64 t64 c64 _ (by rw [hstr]; exact hsp)]
    simp only [hdN, hdT, hdCc, hdec]

end Caerbannog

namespace Caerbannog

theorem claim_C9_witness :
    decrypt roundTripTestCipher
        (encrypt roundTripTestCipher [104, 105] "pw" [7] true) "pw"
      = .ok [104, 105] ∧
    decrypt roundTripTestCipher
        (encrypt roundTripTestCipher [104, 105] "pw" [7] false) "pw"
      = .ok [104, 105] :=
  ⟨claim_C9_secret_roundtrip roundTripTestCipher [104, 105] [7] "pw" true
      (by decide) (by decide)
      (fun key pt hpt =>
        ⟨fun b hb => by
            have hb2 : b ∈ [(0 : Nat)] := hb
            simp only [List.mem_singleton] at hb2
            omega,
          fun b hb => by
            have hb2 : b ∈ [(1 : Nat)] := hb
            simp only [List.mem_singleton] at hb2
            omega,
          hpt, rfl⟩),
    claim_C9_secret_roundtrip roundTripTestCipher [104, 105] [7] "pw" false
      (by decide) (by decide)
      (fun key pt hpt =>
        ⟨fun b hb => by
            have hb2 : b ∈ [(0 : Nat)] := hb
            simp only [List.mem_singleton] at hb2
            omega,
          fun b hb => by
            have hb2 : b ∈ [(1 : Nat)] := hb
            simp only [List.mem_singleton] at hb2
            omega,
          hpt, rfl⟩)⟩

end Caerbannog
